import Mathlib

/-!
Verification of the anomaly-scoring and evidence-explanation engine of the
high-risk-IP-detection repository.

Modelling conventions:
* Python floats are modelled as exact rationals (`ℚ`); values produced by the
  transcendental functions `exp`/`sqrt` live in `ℝ`.  Rounding of IEEE floats
  is not modelled; all the algorithms below are exact arithmetic.
* The single place where the source can produce a float `NaN` (the unguarded
  division `(ranks - 1) / (len(ranks) - 1)` for a one-element input in
  `percentile_within_anomalies`) is modelled explicitly with `Option`:
  `none` stands for `NaN`.
* numpy arrays / pandas series of numbers are modelled as `List ℚ`
  (or `List ℝ`), matrices as `List (List ℚ)` in row-major order.
-/

/-- Minimum of a list of rationals (numpy `array.min()`, defined for
nonempty input; the `[]` case is arbitrary and never reached there). -/
def listMin : List ℚ → ℚ
  | [] => 0
  | x :: xs => xs.foldl min x

/-- Maximum of a list of rationals (numpy `array.max()`). -/
def listMax : List ℚ → ℚ
  | [] => 0
  | x :: xs => xs.foldl max x

theorem foldl_min_le (xs : List ℚ) (a : ℚ) : xs.foldl min a ≤ a := by
  induction xs generalizing a with
  | nil => simp
  | cons x xs ih =>
      simpa using le_trans (ih (min a x)) (min_le_left a x)

theorem foldl_min_le_mem (xs : List ℚ) (a b : ℚ) (hb : b ∈ xs) :
    xs.foldl min a ≤ b := by
  induction xs generalizing a with
  | nil => cases hb
  | cons x xs ih =>
      rcases List.mem_cons.mp hb with h | h
      · subst h
        exact le_trans (foldl_min_le xs (min a b)) (min_le_right a b)
      · exact ih (min a x) h

theorem foldl_min_mem (xs : List ℚ) (a : ℚ) :
    xs.foldl min a = a ∨ xs.foldl min a ∈ xs := by
  induction xs generalizing a with
  | nil => left; rfl
  | cons x xs ih =>
      rcases ih (min a x) with h | h
      · rcases min_choice a x with hm | hm
        · left; simpa [hm] using h
        · right; simp only [List.foldl_cons]
          exact List.mem_cons.mpr (Or.inl (h.trans hm))
      · right; exact List.mem_cons.mpr (Or.inr h)

theorem foldl_max_ge (xs : List ℚ) (a : ℚ) : a ≤ xs.foldl max a := by
  induction xs generalizing a with
  | nil => simp
  | cons x xs ih =>
      simpa using le_trans (le_max_left a x) (ih (max a x))

theorem foldl_max_ge_mem (xs : List ℚ) (a b : ℚ) (hb : b ∈ xs) :
    b ≤ xs.foldl max a := by
  induction xs generalizing a with
  | nil => cases hb
  | cons x xs ih =>
      rcases List.mem_cons.mp hb with h | h
      · subst h
        exact le_trans (le_max_right a b) (foldl_max_ge xs (max a b))
      · exact ih (max a x) h

theorem foldl_max_mem (xs : List ℚ) (a : ℚ) :
    xs.foldl max a = a ∨ xs.foldl max a ∈ xs := by
  induction xs generalizing a with
  | nil => left; rfl
  | cons x xs ih =>
      rcases ih (max a x) with h | h
      · rcases max_choice a x with hm | hm
        · left; simpa [hm] using h
        · right; simp only [List.foldl_cons]
          exact List.mem_cons.mpr (Or.inl (h.trans hm))
      · right; exact List.mem_cons.mpr (Or.inr h)

theorem listMin_le {l : List ℚ} {b : ℚ} (hb : b ∈ l) : listMin l ≤ b := by
  cases l with
  | nil => cases hb
  | cons x xs =>
      rcases List.mem_cons.mp hb with h | h
      · subst h; exact foldl_min_le xs b
      · exact foldl_min_le_mem xs x b h

theorem le_listMax {l : List ℚ} {b : ℚ} (hb : b ∈ l) : b ≤ listMax l := by
  cases l with
  | nil => cases hb
  | cons x xs =>
      rcases List.mem_cons.mp hb with h | h
      · subst h; exact foldl_max_ge xs b
      · exact foldl_max_ge_mem xs x b h

theorem listMin_mem {l : List ℚ} (h : l ≠ []) : listMin l ∈ l := by
  cases l with
  | nil => exact absurd rfl h
  | cons x xs =>
      rcases foldl_min_mem xs x with h' | h'
      · rw [listMin, h']; exact List.mem_cons_self _ _
      · exact List.mem_cons.mpr (Or.inr (by rw [listMin]; exact h'))

theorem listMax_mem {l : List ℚ} (h : l ≠ []) : listMax l ∈ l := by
  cases l with
  | nil => exact absurd rfl h
  | cons x xs =>
      rcases foldl_max_mem xs x with h' | h'
      · rw [listMax, h']; exact List.mem_cons_self _ _
      · exact List.mem_cons.mpr (Or.inr (by rw [listMax]; exact h'))

theorem mem_eq_of_min_eq_max {l : List ℚ} (h : listMin l = listMax l)
    {a b : ℚ} (ha : a ∈ l) (hb : b ∈ l) : a = b := by
  have h1 : a ≤ listMax l := le_listMax ha
  have h2 : listMin l ≤ a := listMin_le ha
  have h3 : b ≤ listMax l := le_listMax hb
  have h4 : listMin l ≤ b := listMin_le hb
  have : a = listMin l := le_antisymm (h ▸ h1) h2
  have hb' : b = listMin l := le_antisymm (h ▸ h3) h4
  rw [this, hb']

theorem listMin_const {l : List ℚ} {c : ℚ} (hne : l ≠ [])
    (h : ∀ x ∈ l, x = c) : listMin l = c :=
  h _ (listMin_mem hne)

theorem listMax_const {l : List ℚ} {c : ℚ} (hne : l ≠ [])
    (h : ∀ x ∈ l, x = c) : listMax l = c :=
  h _ (listMax_mem hne)

/-- Arithmetic mean of a list (numpy `mean`; `0` on the empty list where
numpy would warn and yield `NaN` — every use below is guarded by
nonemptiness). -/
def meanQ (l : List ℚ) : ℚ := l.sum / l.length

/-- Population variance of a list (the square of numpy's `std`). -/
def varQ (l : List ℚ) : ℚ := meanQ (l.map (fun x => (x - meanQ l) ^ 2))

/-- Population standard deviation (numpy `std`), a real number. -/
noncomputable def stdR (l : List ℚ) : ℝ := Real.sqrt (varQ l)

/-- `severity_ranking` branch of `isolation_forest_to_probability` in
`high-risk-ip-detection/src/.ipynb_checkpoints/utils-checkpoint.py`
(identical to `_convert_scores_to_probabilities` of
`high-risk-ip-detection-etl/src/transform/anomaly_detector.py`):
invert the scores, min-max scale to `[0,1]`, then `0.5 + 0.5 * p`;
all-equal scores yield the constant `0.75`. -/
def severityRankingAnom (scores : List ℚ) : List ℚ :=
  let inverted := scores.map (fun s => -s)
  let mn := listMin inverted
  let mx := listMax inverted
  if mx = mn then scores.map (fun _ => 3 / 4)
  else inverted.map (fun x => 1 / 2 + 1 / 2 * ((x - mn) / (mx - mn)))

/-- `_convert_scores_to_probabilities` of
`high-risk-ip-detection-etl/src/transform/.ipynb_checkpoints/anomaly_detector-checkpoint.py`:
dual-range variant operating on all rows; negative raw scores (anomalies)
are mapped to `0.5 + 0.5 * p`, non-negative ones to `0.5 * p`; all-equal
scores yield the constant `0.5`. -/
def severityRankingAll (scores : List ℚ) : List ℚ :=
  let inverted := scores.map (fun s => -s)
  let mn := listMin inverted
  let mx := listMax inverted
  if mx = mn then scores.map (fun _ => 1 / 2)
  else
    scores.map (fun s =>
      if s < 0 then 1 / 2 + 1 / 2 * ((-s - mn) / (mx - mn))
      else 1 / 2 * ((-s - mn) / (mx - mn)))

/-- `scipy.stats.rankdata(l, method='average')` evaluated at the element
`x` of `l`: ties receive the average of the positions they occupy, which
equals `#{y ∈ l | y < x} + (#{y ∈ l | y = x} + 1) / 2`. -/
def rankAvg (l : List ℚ) (x : ℚ) : ℚ :=
  (l.countP (fun y => y < x) : ℚ) + ((l.count x : ℚ) + 1) / 2

/-- `percentile_within_anomalies` branch of
`isolation_forest_to_probability`: average-rank the inverted scores and
rescale `(rank - 1)/(n - 1)` into `[0.5, 1]`.  For a one-element input the
source divides `0.0` by `0`, producing a float `NaN`, modelled as `none`. -/
def percentileWithinAnomalies (scores : List ℚ) : List (Option ℚ) :=
  let inverted := scores.map (fun s => -s)
  let n := scores.length
  inverted.map (fun x =>
    if n = 1 then none
    else some (1 / 2 + 1 / 2 * ((rankAvg inverted x - 1) / ((n : ℚ) - 1))))

/-- `exponential_severity` branch of `isolation_forest_to_probability`:
convex exponential rescale of the min-max-normalized inverted score,
`(exp (2 z) - 1) / (exp 2 - 1)`, then into `[0.5, 1]`; all-equal scores
yield the constant `0.75`. -/
noncomputable def exponentialSeverity (scores : List ℚ) : List ℝ :=
  let inverted := scores.map (fun s => -s)
  let mn := listMin inverted
  let mx := listMax inverted
  if mx = mn then scores.map (fun _ => (3 / 4 : ℝ))
  else
    inverted.map (fun x =>
      let z : ℝ := ((x - mn) / (mx - mn) : ℚ)
      1 / 2 + 1 / 2 * ((Real.exp (2 * z) - 1) / (Real.exp 2 - 1)))

/-- Median of a list (numpy `median`): mean of the one or two middle
elements of the sorted list. -/
def medianQ (l : List ℚ) : ℚ :=
  let sorted := l.insertionSort (· ≤ ·)
  let n := l.length
  if n % 2 = 1 then sorted.getD (n / 2) 0
  else (sorted.getD (n / 2 - 1) 0 + sorted.getD (n / 2) 0) / 2

/-- `sigmoid_centered` branch of `isolation_forest_to_probability`:
logistic rescale of the inverted scores centered on their median, scaled
by their standard deviation with slope factor `2`, into `[0.5, 1]`; a
zero standard deviation (equivalently, zero variance) yields the
constant `0.75`. -/
noncomputable def sigmoidCentered (scores : List ℚ) : List ℝ :=
  let inverted := scores.map (fun s => -s)
  let med := medianQ inverted
  if stdR inverted = 0 then scores.map (fun _ => (3 / 4 : ℝ))
  else
    inverted.map (fun x : ℚ =>
      let z : ℝ := (((x : ℚ) : ℝ) - ((med : ℚ) : ℝ)) / stdR inverted
      1 / 2 + 1 / 2 * (1 / (1 + Real.exp (-2 * z))))

/-- Linear interpolation at fractional position `h` into the data `s`
(the interpolation step of numpy `percentile`):
`s[⌊h⌋] + (h - ⌊h⌋) * (s[⌊h⌋+1] - s[⌊h⌋])`, where the upper sample falls
back to the lower one at the right edge. -/
def interpQ (s : List ℚ) (h : ℚ) : ℚ :=
  let lo : ℕ := (Int.floor h).toNat
  let a := s.getD lo 0
  let b := s.getD (lo + 1) a
  a + (h - (lo : ℚ)) * (b - a)

/-- `numpy.percentile(xs, q)` with the default linear interpolation:
interpolate the sorted data at fractional position `(q/100) * (n-1)`. -/
def percentileQ (xs : List ℚ) (q : ℚ) : ℚ :=
  interpQ (xs.insertionSort (· ≤ ·)) (q / 100 * ((xs.length : ℚ) - 1))

/-- The per-element tier assignment of the `threshold_based` branch,
mirroring the numpy mask writes (`prob` starts at `0`, then the four
masks overwrite it in source order). -/
def thresholdTier (p25 p50 p75 x : ℚ) : ℚ :=
  let v0 : ℚ := 0
  let v1 := if p75 ≤ x then 19 / 20 else v0
  let v2 := if p50 ≤ x ∧ x < p75 then 4 / 5 else v1
  let v3 := if p25 ≤ x ∧ x < p50 then 7 / 10 else v2
  if x < p25 then 3 / 5 else v3

/-- `threshold_based` branch of `isolation_forest_to_probability`: four
discrete severity tiers keyed to the 25th/50th/75th percentiles of the
inverted scores, with fixed probabilities `0.6/0.7/0.8/0.95`. -/
def thresholdBased (scores : List ℚ) : List ℚ :=
  let inverted := scores.map (fun s => -s)
  let p75 := percentileQ inverted 75
  let p50 := percentileQ inverted 50
  let p25 := percentileQ inverted 25
  inverted.map (fun x => thresholdTier p25 p50 p75 x)

/-- `isolation_forest_to_probability(anomaly_scores, method)` of
`high-risk-ip-detection/src/.ipynb_checkpoints/utils-checkpoint.py`:
dispatch on the `method` string through the `if/elif` chain; an unknown
method matches no branch and the function implicitly returns Python
`None`, modelled as `Option.none`.  Elements are `Option ℝ` so that the
one possible elementwise `NaN` (see `percentileWithinAnomalies`) is
representable; all other branches produce only `some` elements. -/
noncomputable def isolation_forest_to_probability (anomaly_scores : List ℚ)
    (method : String) : Option (List (Option ℝ)) :=
  if method = "severity_ranking" then
    some ((severityRankingAnom anomaly_scores).map (fun q => some (q : ℝ)))
  else if method = "percentile_within_anomalies" then
    some ((percentileWithinAnomalies anomaly_scores).map
      (fun o => o.map (fun q => (q : ℝ))))
  else if method = "exponential_severity" then
    some ((exponentialSeverity anomaly_scores).map some)
  else if method = "sigmoid_centered" then
    some ((sigmoidCentered anomaly_scores).map some)
  else if method = "threshold_based" then
    some ((thresholdBased anomaly_scores).map (fun q => some (q : ℝ)))
  else none

/-- The error taxonomy of
`high-risk-ip-detection-etl/src/core/exceptions.py`. -/
inductive PipelineError where
  | configurationError : String → PipelineError
  | extractionError : String → PipelineError
  | transformationError : String → PipelineError
  | loadError : String → PipelineError
deriving DecidableEq, Repr

/-- Python `str(e)`: the message carried by the error. -/
def pipelineErrorMsg : PipelineError → String
  | .configurationError m => m
  | .extractionError m => m
  | .transformationError m => m
  | .loadError m => m

/-- A pandas `DataFrame`: named columns and rows of nullable numbers
(`none` is `NaN`/null). -/
structure DFrame where
  cols : List String
  rows : List (List (Option ℚ))
deriving DecidableEq, Repr

/-- `df[available_columns]`: column projection by name. -/
def selectCols (df : DFrame) (cs : List String) : DFrame :=
  ⟨cs, df.rows.map (fun r => cs.map (fun c => r.getD (df.cols.indexOf c) none))⟩

/-- `df.dropna()`: drop every row containing a null. -/
def dropna (df : DFrame) : DFrame :=
  ⟨df.cols, df.rows.filter (fun r => r.all (fun v => v.isSome))⟩

/-- Body of `FeatureEngineer.prepare_features` in
`high-risk-ip-detection-etl/src/transform/.ipynb_checkpoints/feature_engineer-checkpoint.py`
before its `try/except` wrapper: select the configured columns (raising
`TransformationError` when none of them exists in the data), then
`dropna`, raising `TransformationError` when no row survives. -/
def prepareFeaturesBody (columns_to_keep : List String) (df : DFrame) :
    Except PipelineError DFrame := do
  let df_clean ←
    if columns_to_keep.isEmpty then pure df
    else
      let available := columns_to_keep.filter (fun c => df.cols.contains c)
      if available.isEmpty then
        Except.error (.transformationError "No required columns found in data")
      else pure (selectCols df available)
  let df2 := dropna df_clean
  if df2.rows.isEmpty then
    Except.error (.transformationError "No data remaining after cleaning")
  else pure df2

/-- `FeatureEngineer.prepare_features` including the `try/except` wrapper,
which re-raises any failure as
`TransformationError("Feature preparation failed: " + str(e))`. -/
def prepare_features (columns_to_keep : List String) (df : DFrame) :
    Except PipelineError DFrame :=
  match prepareFeaturesBody columns_to_keep df with
  | .ok v => .ok v
  | .error e =>
      .error (.transformationError ("Feature preparation failed: " ++ pipelineErrorMsg e))

/-- `X[~anomaly_mask]`: the rows of `X` not flagged anomalous. -/
def maskFilter (X : List (List ℚ)) (mask : List Bool) : List (List ℚ) :=
  ((X.zip mask).filter (fun p => !p.2)).map Prod.fst

/-- Column `j` of a row list (used for the per-feature axis-0 reductions). -/
def colVals (rows : List (List ℚ)) (j : ℕ) : List ℚ :=
  rows.map (fun r => r.getD j 0)

/-- The baseline population used by the explainers: the non-anomalous rows,
or all rows when every row is anomalous (`len(normal_data) == 0`). -/
def normalRows (X : List (List ℚ)) (mask : List Bool) : List (List ℚ) :=
  if (maskFilter X mask).length = 0 then X else maskFilter X mask

/-- `normal_mean[j]`: per-feature mean of the baseline population. -/
def baselineMean (X : List (List ℚ)) (mask : List Bool) (j : ℕ) : ℚ :=
  meanQ (colVals (normalRows X mask) j)

/-- `normal_std[j]`: per-feature standard deviation of the baseline
population plus `1e-5`. -/
noncomputable def baselineStd (X : List (List ℚ)) (mask : List Bool) (j : ℕ) : ℝ :=
  stdR (colVals (normalRows X mask) j) + 1 / 100000

/-- `np.abs((actual_values - normal_mean) / normal_std)`: the deviation
vector of row `i`. -/
noncomputable def rowDevs (X : List (List ℚ)) (mask : List Bool) (i : ℕ) : List ℝ :=
  let actual := X.getD i []
  (List.range actual.length).map (fun j =>
    |(((actual.getD j 0 : ℚ) : ℝ) - ((baselineMean X mask j : ℚ) : ℝ)) /
      baselineStd X mask j|)

/-- The stable ascending argsort order on positions of `devs`:
by value, ties by position.  This is a linear order on positions, so the
sorted index list is unique. -/
def argLe (devs : List ℝ) (i j : ℕ) : Prop :=
  devs.getD i 0 < devs.getD j 0 ∨ (devs.getD i 0 = devs.getD j 0 ∧ i ≤ j)

/-- The flipped order: descending by value, ties by larger position first. -/
def argGe (devs : List ℝ) (i j : ℕ) : Prop := argLe devs j i

noncomputable instance (devs : List ℝ) : DecidableRel (argLe devs) := fun _ _ =>
  inferInstanceAs (Decidable (_ ∨ _))

noncomputable instance (devs : List ℝ) : DecidableRel (argGe devs) := fun i j =>
  inferInstanceAs (Decidable (argLe devs j i))

/-- `np.argsort(devs)`: the positions of `devs` in ascending value order
(numpy leaves the order of equal values unspecified; we model the stable
choice, position order, which is the reading under which the spec claims
its tie-breaking rule). -/
noncomputable def argsortAsc (devs : List ℝ) : List ℕ :=
  (List.range devs.length).insertionSort (argLe devs)

/-- `np.argsort(deviations)[-3:][::-1]`: last three positions of the
ascending argsort, reversed. -/
noncomputable def topKIndices (devs : List ℝ) : List ℕ :=
  ((argsortAsc devs).drop (devs.length - 3)).reverse

/-- The feature positions selected by the explainers
(`_add_evidence_explanations` / `_add_anomaly_explanations`) for row `i`. -/
noncomputable def evidenceIndices (X : List (List ℚ)) (mask : List Bool) (i : ℕ) :
    List ℕ :=
  topKIndices (rowDevs X mask i)

/-- Modelled from the spec words of C5: the order "deviation descending,
ties broken by original feature order" — earlier position first on equal
deviations. -/
def specArgGe (devs : List ℝ) (i j : ℕ) : Prop :=
  devs.getD j 0 < devs.getD i 0 ∨ (devs.getD i 0 = devs.getD j 0 ∧ i ≤ j)

noncomputable instance (devs : List ℝ) : DecidableRel (specArgGe devs) := fun _ _ =>
  inferInstanceAs (Decidable (_ ∨ _))

/-- Modelled from the spec words of C5: positions sorted by deviation
descending with ties broken by the earlier original position first, then
truncated to the top 3. -/
noncomputable def specTopKEarlierTies (devs : List ℝ) : List ℕ :=
  ((List.range devs.length).insertionSort (specArgGe devs)).take 3

/-- Positions sorted by deviation descending with ties broken by the later
original position first, truncated to the top 3 (the order the code
actually produces). -/
noncomputable def argsortDescLaterTies (devs : List ℝ) : List ℕ :=
  (List.range devs.length).insertionSort (argGe devs)

/-- The value stored in the `evidence` column for one row, standing for the
rendered string: the outlier/inlier tag together with the selected feature
positions (decimal string formatting of the floats is not modelled). -/
noncomputable def explainRow (X : List (List ℚ)) (mask : List Bool) (i : ℕ) :
    Bool × List ℕ :=
  (mask.getD i false, evidenceIndices X mask i)

/-- An anomalies-only report of the checkpoint detector:
columns plus rows of (IP, evidence, probability). -/
structure Report where
  cols : List String
  rows : List (String × (Bool × List ℕ) × ℚ)

/-- The full-data report of the checkpoint detector:
(IP, evidence, probability, is_anomaly). -/
structure ReportFull where
  cols : List String
  rows : List (String × (Bool × List ℕ) × ℚ × Bool)

/-- The anomalies-only report of the non-checkpoint detector:
(IP, anomaly_reason, probability); `none` in the reason column stands for
the literal string `Normal`. -/
structure ReportMain where
  cols : List String
  rows : List (String × Option (List ℕ) × ℚ)

/-- `AnomalyDetector.detect_anomalies` of
`high-risk-ip-detection-etl/src/transform/.ipynb_checkpoints/anomaly_detector-checkpoint.py`,
modelled from the model fit onwards: the isolation-forest labels and
scores are inputs (the fit itself is a library call).  Evidence is
attached to every row, probabilities come from the dual-range calibration
over all scores, and the function returns the anomalies-only report
(empty with columns `IP, evidence, probability` when nothing is flagged)
together with the full-data report. -/
noncomputable def detectAnomaliesCheckpoint (ips : List String) (X : List (List ℚ))
    (labels : List Bool) (scores : List ℚ) : Report × ReportFull :=
  let probs := severityRankingAll scores
  let rows := (List.range ips.length).map (fun i =>
    (ips.getD i "", explainRow X labels i, probs.getD i 0, labels.getD i false))
  let full : ReportFull := ⟨["IP", "evidence", "probability", "is_anomaly"], rows⟩
  let anomRows := rows.filter (fun r => r.2.2.2)
  let anomalies : Report :=
    if anomRows.length = 0 then ⟨["IP", "evidence", "probability"], []⟩
    else ⟨["IP", "evidence", "probability"],
      anomRows.map (fun r => (r.1, r.2.1, r.2.2.1))⟩
  (anomalies, full)

/-- `AnomalyDetector.detect_anomalies` of
`high-risk-ip-detection-etl/src/transform/anomaly_detector.py`, modelled
from the model fit onwards: reasons are attached to anomalous rows only,
the rows are filtered to the anomalies, and probabilities are computed by
the `[0.5, 1]` calibration over the anomalous scores only; with no
anomaly the function returns an empty frame with columns
`IP, anomaly_reason, probability`. -/
noncomputable def detectAnomaliesMain (ips : List String) (X : List (List ℚ))
    (labels : List Bool) (scores : List ℚ) : ReportMain :=
  let anomIdx := (List.range labels.length).filter (fun i => labels.getD i false)
  if anomIdx.length = 0 then ⟨["IP", "anomaly_reason", "probability"], []⟩
  else
    let aScores := anomIdx.map (fun i => scores.getD i 0)
    let probs := severityRankingAnom aScores
    ⟨["IP", "anomaly_reason", "probability"],
      (List.range anomIdx.length).map (fun k =>
        (ips.getD (anomIdx.getD k 0) "",
         some (evidenceIndices X labels (anomIdx.getD k 0)),
         probs.getD k 0))⟩

theorem getD_map_of_lt {α β : Type} (f : α → β) (l : List α) {i : ℕ}
    (h : i < l.length) (d : β) (d' : α) :
    (l.map f).getD i d = f (l.getD i d') := by
  rw [List.getD_eq_getElem?_getD, List.getD_eq_getElem?_getD,
      List.getElem?_map, List.getElem?_eq_getElem h]
  rfl

theorem listMin_le_listMax {l : List ℚ} (h : l ≠ []) : listMin l ≤ listMax l :=
  le_listMax (listMin_mem h)

theorem listMin_lt_listMax {l : List ℚ} (hne : l ≠ [])
    (h : listMax l ≠ listMin l) : listMin l < listMax l :=
  lt_of_le_of_ne (listMin_le_listMax hne) (Ne.symm h)

theorem scale_nonneg {l : List ℚ} {x : ℚ} (hx : x ∈ l)
    (h : listMax l ≠ listMin l) : 0 ≤ (x - listMin l) / (listMax l - listMin l) :=
  div_nonneg (sub_nonneg.mpr (listMin_le hx))
    (le_of_lt (sub_pos.mpr (listMin_lt_listMax (List.ne_nil_of_mem hx) h)))

theorem scale_le_one {l : List ℚ} {x : ℚ} (hx : x ∈ l)
    (h : listMax l ≠ listMin l) : (x - listMin l) / (listMax l - listMin l) ≤ 1 := by
  have hd : 0 < listMax l - listMin l :=
    sub_pos.mpr (listMin_lt_listMax (List.ne_nil_of_mem hx) h)
  rw [div_le_one hd]
  exact sub_le_sub_right (le_listMax hx) _

theorem scale_mono {l : List ℚ} {x y : ℚ} (hne : l ≠ [])
    (h : listMax l ≠ listMin l) (hxy : y ≤ x) :
    (y - listMin l) / (listMax l - listMin l) ≤
      (x - listMin l) / (listMax l - listMin l) := by
  have hd : 0 < listMax l - listMin l := sub_pos.mpr (listMin_lt_listMax hne h)
  exact div_le_div_of_nonneg_right (sub_le_sub_right hxy _) hd.le

theorem countP_lt_add_count_eq_countP_le (l : List ℚ) (y : ℚ) :
    l.countP (fun z => decide (z < y)) + l.count y
      = l.countP (fun z => decide (z ≤ y)) := by
  induction l with
  | nil => simp
  | cons z l ih =>
      simp only [List.countP_cons, List.count_cons]
      rcases lt_trichotomy z y with h | h | h
      · have h1 : decide (z < y) = true := by simpa using h
        have h2 : decide (z ≤ y) = true := by simpa using le_of_lt h
        have h3 : ¬ (z = y) := ne_of_lt h
        simp [h1, h2, h3]
        omega
      · subst h
        simp
        omega
      · have h1 : decide (z < y) = false := by simpa using le_of_lt h
        have h2 : decide (z ≤ y) = false := by simpa using h
        have h3 : ¬ (z = y) := (ne_of_lt h).symm
        simp [h1, h2, h3]
        omega

theorem rankAvg_lt_rankAvg {l : List ℚ} {x y : ℚ} (hy : y ∈ l) (hx : x ∈ l)
    (hxy : y < x) : rankAvg l y < rankAvg l x := by
  have hcy : 1 ≤ l.count y := List.count_pos_iff.mpr hy
  have hcx : 1 ≤ l.count x := List.count_pos_iff.mpr hx
  have hmono : l.countP (fun z => decide (z ≤ y)) ≤ l.countP (fun z => decide (z < x)) := by
    apply List.countP_mono_left
    intro a _ ha
    simpa using lt_of_le_of_lt (by simpa using ha) hxy
  have hkey : l.countP (fun z => decide (z < y)) + l.count y
      ≤ l.countP (fun z => decide (z < x)) := by
    rw [countP_lt_add_count_eq_countP_le]; exact hmono
  unfold rankAvg
  have h1 : ((l.countP (fun z => decide (z < y)) : ℚ)) + (l.count y : ℚ)
      ≤ (l.countP (fun z => decide (z < x)) : ℚ) := by exact_mod_cast hkey
  have h2 : (1 : ℚ) ≤ (l.count y : ℚ) := by exact_mod_cast hcy
  have h3 : (1 : ℚ) ≤ (l.count x : ℚ) := by exact_mod_cast hcx
  linarith

theorem rankAvg_ge_one {l : List ℚ} {x : ℚ} (hx : x ∈ l) : 1 ≤ rankAvg l x := by
  have hcx : 1 ≤ l.count x := List.count_pos_iff.mpr hx
  have h3 : (1 : ℚ) ≤ (l.count x : ℚ) := by exact_mod_cast hcx
  have h0 : (0 : ℚ) ≤ (l.countP (fun z => decide (z < x)) : ℚ) := by positivity
  unfold rankAvg
  linarith

theorem rankAvg_le_length {l : List ℚ} {x : ℚ} (hx : x ∈ l) :
    rankAvg l x ≤ l.length := by
  have hcx : 1 ≤ l.count x := List.count_pos_iff.mpr hx
  have hkey : l.countP (fun z => decide (z < x)) + l.count x ≤ l.length := by
    rw [countP_lt_add_count_eq_countP_le]
    exact List.countP_le_length _
  have h1 : ((l.countP (fun z => decide (z < x)) : ℚ)) + (l.count x : ℚ)
      ≤ (l.length : ℚ) := by exact_mod_cast hkey
  have h3 : (1 : ℚ) ≤ (l.count x : ℚ) := by exact_mod_cast hcx
  unfold rankAvg
  linarith

theorem sorted_getD_mono {s : List ℚ} (hs : s.Sorted (· ≤ ·)) {i j : ℕ}
    (hij : i ≤ j) (hj : j < s.length) : s.getD i 0 ≤ s.getD j 0 := by
  have hi : i < s.length := lt_of_le_of_lt hij hj
  rw [List.getD_eq_getElem _ _ hi, List.getD_eq_getElem _ _ hj]
  rcases eq_or_lt_of_le hij with rfl | h
  · exact le_refl _
  · exact hs.rel_get_of_lt h

theorem interpQ_floor_le {h : ℚ} (h0 : 0 ≤ h) : (((Int.floor h).toNat : ℚ)) ≤ h := by
  have hf : (0 : ℤ) ≤ Int.floor h := Int.floor_nonneg.mpr h0
  have key : (((Int.floor h).toNat : ℤ) : ℚ) ≤ h := by
    rw [Int.toNat_of_nonneg hf]
    exact Int.floor_le h
  exact_mod_cast key

theorem interpQ_lt_floor_add_one {h : ℚ} (h0 : 0 ≤ h) :
    h < ((Int.floor h).toNat : ℚ) + 1 := by
  have hf : (0 : ℤ) ≤ Int.floor h := Int.floor_nonneg.mpr h0
  have key : h < (((Int.floor h).toNat : ℤ) : ℚ) + 1 := by
    rw [Int.toNat_of_nonneg hf]
    exact_mod_cast Int.lt_floor_add_one h
  exact_mod_cast key

theorem interpQ_lo_le {h : ℚ} {n : ℕ} (h0 : 0 ≤ h) (hn : h ≤ (n : ℚ) - 1)
    (hn1 : 1 ≤ n) : (Int.floor h).toNat ≤ n - 1 := by
  have hle : (((Int.floor h).toNat : ℚ)) ≤ ((n - 1 : ℕ) : ℚ) := by
    have heq : ((n - 1 : ℕ) : ℚ) = (n : ℚ) - 1 := by
      push_cast [Nat.cast_sub hn1]; ring
    rw [heq]
    exact le_trans (interpQ_floor_le h0) hn
  exact_mod_cast hle

theorem getD_default_irrel {s : List ℚ} {i : ℕ} (hi : i < s.length) (d d' : ℚ) :
    s.getD i d = s.getD i d' := by
  rw [List.getD_eq_getElem _ _ hi, List.getD_eq_getElem _ _ hi]

theorem interpQ_seg_le {s : List ℚ} (hs : s.Sorted (· ≤ ·)) (lo : ℕ) :
    s.getD lo 0 ≤ s.getD (lo + 1) (s.getD lo 0) := by
  by_cases hcase : lo + 1 < s.length
  · rw [getD_default_irrel hcase (s.getD lo 0) 0]
    exact sorted_getD_mono hs (Nat.le_succ lo) hcase
  · rw [List.getD_eq_default _ _ (le_of_not_lt hcase)]

theorem interpQ_eq (s : List ℚ) (h : ℚ) :
    interpQ s h = s.getD (Int.floor h).toNat 0 +
      (h - ((Int.floor h).toNat : ℚ)) *
        (s.getD ((Int.floor h).toNat + 1) (s.getD (Int.floor h).toNat 0) -
          s.getD (Int.floor h).toNat 0) := rfl

theorem interpQ_between {s : List ℚ} (hs : s.Sorted (· ≤ ·)) {h : ℚ}
    (h0 : 0 ≤ h) (hn : h ≤ (s.length : ℚ) - 1) :
    s.getD (Int.floor h).toNat 0 ≤ interpQ s h ∧
      interpQ s h ≤ s.getD ((Int.floor h).toNat + 1) (s.getD (Int.floor h).toNat 0) := by
  have hab : s.getD (Int.floor h).toNat 0 ≤
      s.getD ((Int.floor h).toNat + 1) (s.getD (Int.floor h).toNat 0) :=
    interpQ_seg_le hs _
  have hf0 : 0 ≤ h - (((Int.floor h).toNat : ℚ)) := sub_nonneg.mpr (interpQ_floor_le h0)
  have hf1 : h - (((Int.floor h).toNat : ℚ)) ≤ 1 := by
    have := interpQ_lt_floor_add_one h0
    linarith
  rw [interpQ_eq]
  constructor
  · nlinarith
  · nlinarith

theorem interpQ_mono {s : List ℚ} (hs : s.Sorted (· ≤ ·)) {h1 h2 : ℚ}
    (h0 : 0 ≤ h1) (h12 : h1 ≤ h2) (hn : h2 ≤ (s.length : ℚ) - 1) :
    interpQ s h1 ≤ interpQ s h2 := by
  have h20 : 0 ≤ h2 := le_trans h0 h12
  have hn1 : 1 ≤ s.length := by
    have ha : (0 : ℚ) ≤ (s.length : ℚ) - 1 := le_trans h20 hn
    have hb : (1 : ℚ) ≤ (s.length : ℚ) := by linarith
    exact_mod_cast hb
  have hl12 : (Int.floor h1).toNat ≤ (Int.floor h2).toNat :=
    Int.toNat_le_toNat (Int.floor_mono h12)
  have hlo2n : (Int.floor h2).toNat ≤ s.length - 1 := interpQ_lo_le h20 hn hn1
  have hlo2lt : (Int.floor h2).toNat < s.length :=
    lt_of_le_of_lt hlo2n (Nat.sub_lt hn1 one_pos)
  rcases eq_or_lt_of_le hl12 with heq | hlt
  · -- same segment
    rw [interpQ_eq, interpQ_eq, ← heq]
    have hab := interpQ_seg_le hs (Int.floor h1).toNat (s := s)
    have hmul : (h1 - (((Int.floor h1).toNat : ℚ))) *
          (s.getD ((Int.floor h1).toNat + 1) (s.getD (Int.floor h1).toNat 0) -
            s.getD (Int.floor h1).toNat 0)
        ≤ (h2 - (((Int.floor h1).toNat : ℚ))) *
          (s.getD ((Int.floor h1).toNat + 1) (s.getD (Int.floor h1).toNat 0) -
            s.getD (Int.floor h1).toNat 0) :=
      mul_le_mul_of_nonneg_right (by linarith) (sub_nonneg.mpr hab)
    linarith
  · -- different segments: pass through the boundary samples
    have hstep : (Int.floor h1).toNat + 1 ≤ (Int.floor h2).toNat := hlt
    have h1n : h1 ≤ (s.length : ℚ) - 1 := le_trans h12 hn
    have hup : interpQ s h1 ≤
        s.getD ((Int.floor h1).toNat + 1) (s.getD (Int.floor h1).toNat 0) :=
      (interpQ_between hs h0 h1n).2
    have hvalid : (Int.floor h1).toNat + 1 < s.length := lt_of_le_of_lt hstep hlo2lt
    have hmid : s.getD ((Int.floor h1).toNat + 1) (s.getD (Int.floor h1).toNat 0)
        ≤ s.getD (Int.floor h2).toNat 0 := by
      rw [getD_default_irrel hvalid (s.getD (Int.floor h1).toNat 0) 0]
      exact sorted_getD_mono hs hstep hlo2lt
    have hlow : s.getD (Int.floor h2).toNat 0 ≤ interpQ s h2 :=
      (interpQ_between hs h20 hn).1
    linarith

theorem insertionSort_length (xs : List ℚ) :
    (xs.insertionSort (· ≤ ·)).length = xs.length :=
  (List.perm_insertionSort _ _).length_eq

theorem percentileQ_mono (xs : List ℚ) (hne : xs ≠ []) {q1 q2 : ℚ}
    (hq0 : 0 ≤ q1) (hq12 : q1 ≤ q2) (hq100 : q2 ≤ 100) :
    percentileQ xs q1 ≤ percentileQ xs q2 := by
  have hn1 : 1 ≤ xs.length := List.length_pos.mpr hne
  have hnq : (1 : ℚ) ≤ (xs.length : ℚ) := by exact_mod_cast hn1
  have hs : (xs.insertionSort (· ≤ ·)).Sorted (· ≤ ·) :=
    List.sorted_insertionSort _ _
  have hq20 : 0 ≤ q2 := le_trans hq0 hq12
  unfold percentileQ
  apply interpQ_mono hs
  · exact mul_nonneg (div_nonneg hq0 (by norm_num)) (by linarith)
  · exact mul_le_mul_of_nonneg_right (by linarith [div_le_div_of_nonneg_right hq12 (by norm_num : (0:ℚ) < 100).le]) (by linarith)
  · rw [insertionSort_length]
    have hq2 : q2 / 100 ≤ 1 := by linarith
    have hq2' : 0 ≤ q2 / 100 := div_nonneg hq20 (by norm_num)
    nlinarith

theorem thresholdTier_eq {p25 p50 p75 : ℚ} (h1 : p25 ≤ p50) (h2 : p50 ≤ p75)
    (x : ℚ) :
    thresholdTier p25 p50 p75 x =
      if x < p25 then 3 / 5 else if x < p50 then 7 / 10
        else if x < p75 then 4 / 5 else 19 / 20 := by
  rcases lt_or_le x p25 with hA | hA
  · have c1 : ¬ p75 ≤ x := by linarith
    have c2 : ¬ (p50 ≤ x ∧ x < p75) := by rintro ⟨h, _⟩; linarith
    have c3 : ¬ (p25 ≤ x ∧ x < p50) := by rintro ⟨h, _⟩; linarith
    simp [thresholdTier, c1, c2, c3, hA]
  · rcases lt_or_le x p50 with hB | hB
    · have c1 : ¬ p75 ≤ x := by linarith
      have c2 : ¬ (p50 ≤ x ∧ x < p75) := by rintro ⟨h, _⟩; linarith
      have c3 : p25 ≤ x ∧ x < p50 := ⟨hA, hB⟩
      have c4 : ¬ x < p25 := not_lt.mpr hA
      simp [thresholdTier, c1, c2, c3, c4, hB]
    · rcases lt_or_le x p75 with hC | hC
      · have c1 : ¬ p75 ≤ x := not_le.mpr hC
        have c2 : p50 ≤ x ∧ x < p75 := ⟨hB, hC⟩
        have c3 : ¬ (p25 ≤ x ∧ x < p50) := by rintro ⟨_, h⟩; linarith
        have c4 : ¬ x < p25 := by linarith
        have c5 : ¬ x < p50 := not_lt.mpr hB
        simp [thresholdTier, c1, c2, c3, c4, c5, hC]
      · have c2 : ¬ (p50 ≤ x ∧ x < p75) := by rintro ⟨_, h⟩; linarith
        have c3 : ¬ (p25 ≤ x ∧ x < p50) := by rintro ⟨_, h⟩; linarith
        have c4 : ¬ x < p25 := by linarith
        have c5 : ¬ x < p50 := by linarith
        have c6 : ¬ x < p75 := not_lt.mpr hC
        simp [thresholdTier, hC, c2, c3, c4, c5, c6]

theorem thresholdTier_mono {p25 p50 p75 : ℚ} (h1 : p25 ≤ p50) (h2 : p50 ≤ p75)
    {x y : ℚ} (hxy : y ≤ x) :
    thresholdTier p25 p50 p75 y ≤ thresholdTier p25 p50 p75 x := by
  rw [thresholdTier_eq h1 h2, thresholdTier_eq h1 h2]
  split_ifs <;> linarith

theorem getD_mem {l : List ℚ} {i : ℕ} (hi : i < l.length) : l.getD i 0 ∈ l := by
  rw [List.getD_eq_getElem _ _ hi]
  exact List.getElem_mem hi

/-- C8: `threshold_based` calibration assigns, to every row of a non-empty
score sequence, exactly one of the four probabilities 0.6, 0.7, 0.8, 0.95,
determined by where the negated score falls relative to the 25th/50th/75th
percentiles of the negated scores: below the 25th percentile ↔ 0.6,
between the 25th and 50th ↔ 0.7, between the 50th and 75th ↔ 0.8, and at
or above the 75th ↔ 0.95. -/
theorem C8_threshold_based_tiers (scores : List ℚ) (hne : scores ≠ [])
    (i : ℕ) (hi : i < scores.length) :
    ((thresholdBased scores).getD i 0 = 3 / 5 ∨
      (thresholdBased scores).getD i 0 = 7 / 10 ∨
      (thresholdBased scores).getD i 0 = 4 / 5 ∨
      (thresholdBased scores).getD i 0 = 19 / 20) ∧
    ((thresholdBased scores).getD i 0 = 3 / 5 ↔
      -(scores.getD i 0) < percentileQ (scores.map (fun s => -s)) 25) ∧
    ((thresholdBased scores).getD i 0 = 7 / 10 ↔
      percentileQ (scores.map (fun s => -s)) 25 ≤ -(scores.getD i 0) ∧
        -(scores.getD i 0) < percentileQ (scores.map (fun s => -s)) 50) ∧
    ((thresholdBased scores).getD i 0 = 4 / 5 ↔
      percentileQ (scores.map (fun s => -s)) 50 ≤ -(scores.getD i 0) ∧
        -(scores.getD i 0) < percentileQ (scores.map (fun s => -s)) 75) ∧
    ((thresholdBased scores).getD i 0 = 19 / 20 ↔
      percentileQ (scores.map (fun s => -s)) 75 ≤ -(scores.getD i 0)) := by
  have hinv : scores.map (fun s => -s) ≠ [] := by
    simpa using hne
  have h1 : percentileQ (scores.map (fun s => -s)) 25 ≤
      percentileQ (scores.map (fun s => -s)) 50 :=
    percentileQ_mono _ hinv (by norm_num) (by norm_num) (by norm_num)
  have h2 : percentileQ (scores.map (fun s => -s)) 50 ≤
      percentileQ (scores.map (fun s => -s)) 75 :=
    percentileQ_mono _ hinv (by norm_num) (by norm_num) (by norm_num)
  have hout : (thresholdBased scores).getD i 0 =
      thresholdTier (percentileQ (scores.map (fun s => -s)) 25)
        (percentileQ (scores.map (fun s => -s)) 50)
        (percentileQ (scores.map (fun s => -s)) 75)
        (-(scores.getD i 0)) := by
    have e : thresholdBased scores = (scores.map (fun s => -s)).map
        (fun x => thresholdTier (percentileQ (scores.map (fun s => -s)) 25)
          (percentileQ (scores.map (fun s => -s)) 50)
          (percentileQ (scores.map (fun s => -s)) 75) x) := rfl
    rw [e, getD_map_of_lt _ _ (by simpa using hi) 0 0,
        getD_map_of_lt _ _ hi 0 0]
  set p25 := percentileQ (scores.map (fun s => -s)) 25
  set p50 := percentileQ (scores.map (fun s => -s)) 50
  set p75 := percentileQ (scores.map (fun s => -s)) 75
  set x := -(scores.getD i 0) with hx
  rw [hout, thresholdTier_eq h1 h2]
  rcases lt_or_le x p25 with hA | hA
  · rw [if_pos hA]
    refine ⟨Or.inl rfl, ⟨fun _ => hA, fun _ => rfl⟩, ?_, ?_, ?_⟩
    · constructor
      · intro h; norm_num at h
      · rintro ⟨h, _⟩; linarith
    · constructor
      · intro h; norm_num at h
      · rintro ⟨h, _⟩; linarith
    · constructor
      · intro h; norm_num at h
      · intro h; linarith
  · rcases lt_or_le x p50 with hB | hB
    · rw [if_neg (not_lt.mpr hA), if_pos hB]
      refine ⟨Or.inr (Or.inl rfl), ?_, ⟨fun _ => ⟨hA, hB⟩, fun _ => rfl⟩, ?_, ?_⟩
      · constructor
        · intro h; norm_num at h
        · intro h; linarith
      · constructor
        · intro h; norm_num at h
        · rintro ⟨h, _⟩; linarith
      · constructor
        · intro h; norm_num at h
        · intro h; linarith
    · rcases lt_or_le x p75 with hC | hC
      · rw [if_neg (by linarith : ¬ x < p25), if_neg (not_lt.mpr hB), if_pos hC]
        refine ⟨Or.inr (Or.inr (Or.inl rfl)), ?_, ?_,
          ⟨fun _ => ⟨hB, hC⟩, fun _ => rfl⟩, ?_⟩
        · constructor
          · intro h; norm_num at h
          · intro h; linarith
        · constructor
          · intro h; norm_num at h
          · rintro ⟨_, h⟩; linarith
        · constructor
          · intro h; norm_num at h
          · intro h; linarith
      · rw [if_neg (by linarith : ¬ x < p25), if_neg (by linarith : ¬ x < p50),
            if_neg (not_lt.mpr hC)]
        refine ⟨Or.inr (Or.inr (Or.inr rfl)), ?_, ?_, ?_,
          ⟨fun _ => hC, fun _ => rfl⟩⟩
        · constructor
          · intro h; norm_num at h
          · intro h; linarith
        · constructor
          · intro h; norm_num at h
          · rintro ⟨_, h⟩; linarith
        · constructor
          · intro h; norm_num at h
          · rintro ⟨_, h⟩; linarith

theorem C8_threshold_based_tiers_witness :
    (thresholdBased [-1, -2, -3, -4]).getD 3 0 = 3 / 5 ∨
      (thresholdBased [-1, -2, -3, -4]).getD 3 0 = 7 / 10 ∨
      (thresholdBased [-1, -2, -3, -4]).getD 3 0 = 4 / 5 ∨
      (thresholdBased [-1, -2, -3, -4]).getD 3 0 = 19 / 20 :=
  (C8_threshold_based_tiers [-1, -2, -3, -4] (by decide) 3 (by decide)).1

/-- C7: the dual-range `severity_ranking` calibration operating on all
rows (`_convert_scores_to_probabilities` of the checkpoint detector):
when the score sequence has at least two distinct values, every row with a
negative raw score receives a probability in `[0.5, 1]`, and every row
with a non-negative raw score a probability in `[0, 0.5]`, both by
min-max rescaling the negated score. -/
theorem C7_dual_range_severity (scores : List ℚ)
    (hd : ∃ a ∈ scores, ∃ b ∈ scores, a ≠ b) (i : ℕ) (hi : i < scores.length) :
    (scores.getD i 0 < 0 →
      1 / 2 ≤ (severityRankingAll scores).getD i 0 ∧
        (severityRankingAll scores).getD i 0 ≤ 1) ∧
    (0 ≤ scores.getD i 0 →
      0 ≤ (severityRankingAll scores).getD i 0 ∧
        (severityRankingAll scores).getD i 0 ≤ 1 / 2) := by
  obtain ⟨a, ha, b, hb, hab⟩ := hd
  have hmm : listMax (scores.map (fun s => -s)) ≠ listMin (scores.map (fun s => -s)) := by
    intro hcontra
    exact hab (neg_injective (mem_eq_of_min_eq_max hcontra.symm
      (List.mem_map_of_mem _ ha) (List.mem_map_of_mem _ hb)))
  have e : severityRankingAll scores =
      if listMax (scores.map (fun s => -s)) = listMin (scores.map (fun s => -s))
      then scores.map (fun _ => 1 / 2)
      else scores.map (fun s =>
        if s < 0 then 1 / 2 + 1 / 2 * ((-s - listMin (scores.map (fun s => -s))) /
          (listMax (scores.map (fun s => -s)) - listMin (scores.map (fun s => -s))))
        else 1 / 2 * ((-s - listMin (scores.map (fun s => -s))) /
          (listMax (scores.map (fun s => -s)) - listMin (scores.map (fun s => -s))))) := rfl
  rw [e, if_neg hmm, getD_map_of_lt _ _ hi 0 0]
  have hmemx : -(scores.getD i 0) ∈ scores.map (fun s => -s) :=
    List.mem_map_of_mem _ (getD_mem hi)
  have hp0 : 0 ≤ (-(scores.getD i 0) - listMin (scores.map (fun s => -s))) /
      (listMax (scores.map (fun s => -s)) - listMin (scores.map (fun s => -s))) :=
    scale_nonneg hmemx hmm
  have hp1 : (-(scores.getD i 0) - listMin (scores.map (fun s => -s))) /
      (listMax (scores.map (fun s => -s)) - listMin (scores.map (fun s => -s))) ≤ 1 :=
    scale_le_one hmemx hmm
  constructor
  · intro hneg
    rw [if_pos hneg]
    constructor <;> linarith
  · intro hpos
    rw [if_neg (not_lt.mpr hpos)]
    constructor <;> linarith

theorem C7_dual_range_severity_witness :
    ((-1 : ℚ) < 0 →
      1 / 2 ≤ (severityRankingAll [-1, 1]).getD 0 0 ∧
        (severityRankingAll [-1, 1]).getD 0 0 ≤ 1) ∧
    ((0 : ℚ) ≤ -1 →
      0 ≤ (severityRankingAll [-1, 1]).getD 0 0 ∧
        (severityRankingAll [-1, 1]).getD 0 0 ≤ 1 / 2) :=
  C7_dual_range_severity [-1, 1] (by decide) 0 (by decide)

theorem severityRankingAnom_getD {scores : List ℚ} {i : ℕ} (hi : i < scores.length)
    (hc : listMax (scores.map (fun s => -s)) ≠ listMin (scores.map (fun s => -s))) :
    (severityRankingAnom scores).getD i 0 =
      1 / 2 + 1 / 2 * ((-(scores.getD i 0) - listMin (scores.map (fun s => -s))) /
        (listMax (scores.map (fun s => -s)) - listMin (scores.map (fun s => -s)))) := by
  simp only [severityRankingAnom, if_neg hc]
  rw [getD_map_of_lt _ _ (by simpa using hi) 0 0, getD_map_of_lt _ _ hi 0 0]

theorem severityRankingAnom_getD_const {scores : List ℚ} {i : ℕ}
    (hi : i < scores.length)
    (hc : listMax (scores.map (fun s => -s)) = listMin (scores.map (fun s => -s))) :
    (severityRankingAnom scores).getD i 0 = 3 / 4 := by
  simp only [severityRankingAnom, if_pos hc]
  rw [getD_map_of_lt _ _ hi 0 0]

theorem severityRankingAll_getD {scores : List ℚ} {i : ℕ} (hi : i < scores.length)
    (hc : listMax (scores.map (fun s => -s)) ≠ listMin (scores.map (fun s => -s))) :
    (severityRankingAll scores).getD i 0 =
      if scores.getD i 0 < 0 then
        1 / 2 + 1 / 2 * ((-(scores.getD i 0) - listMin (scores.map (fun s => -s))) /
          (listMax (scores.map (fun s => -s)) - listMin (scores.map (fun s => -s))))
      else 1 / 2 * ((-(scores.getD i 0) - listMin (scores.map (fun s => -s))) /
        (listMax (scores.map (fun s => -s)) - listMin (scores.map (fun s => -s)))) := by
  simp only [severityRankingAll, if_neg hc]
  rw [getD_map_of_lt _ _ hi 0 0]

theorem severityRankingAll_getD_const {scores : List ℚ} {i : ℕ}
    (hi : i < scores.length)
    (hc : listMax (scores.map (fun s => -s)) = listMin (scores.map (fun s => -s))) :
    (severityRankingAll scores).getD i 0 = 1 / 2 := by
  simp only [severityRankingAll, if_pos hc]
  rw [getD_map_of_lt _ _ hi 0 0]

theorem percentileWithinAnomalies_getD {scores : List ℚ} {i : ℕ}
    (hi : i < scores.length) (hn : scores.length ≠ 1) :
    (percentileWithinAnomalies scores).getD i none =
      some (1 / 2 + 1 / 2 * ((rankAvg (scores.map (fun s => -s)) (-(scores.getD i 0)) - 1) /
        ((scores.length : ℚ) - 1))) := by
  simp only [percentileWithinAnomalies, if_neg hn]
  rw [getD_map_of_lt _ _ (by simpa using hi) none 0, getD_map_of_lt _ _ hi 0 0]

theorem percentileWithinAnomalies_getD_one {scores : List ℚ} {i : ℕ}
    (hi : i < scores.length) (hn : scores.length = 1) :
    (percentileWithinAnomalies scores).getD i none = none := by
  simp only [percentileWithinAnomalies, if_pos hn]
  rw [getD_map_of_lt _ _ (by simpa using hi) none 0]

theorem exponentialSeverity_getD {scores : List ℚ} {i : ℕ} (hi : i < scores.length)
    (hc : listMax (scores.map (fun s => -s)) ≠ listMin (scores.map (fun s => -s))) :
    (exponentialSeverity scores).getD i 0 =
      1 / 2 + 1 / 2 * ((Real.exp (2 * (((-(scores.getD i 0) - listMin (scores.map (fun s => -s))) /
          (listMax (scores.map (fun s => -s)) - listMin (scores.map (fun s => -s))) : ℚ) : ℝ)) - 1) /
        (Real.exp 2 - 1)) := by
  simp only [exponentialSeverity, if_neg hc]
  rw [getD_map_of_lt _ _ (by simpa using hi) 0 0, getD_map_of_lt _ _ hi 0 0]

theorem exponentialSeverity_getD_const {scores : List ℚ} {i : ℕ}
    (hi : i < scores.length)
    (hc : listMax (scores.map (fun s => -s)) = listMin (scores.map (fun s => -s))) :
    (exponentialSeverity scores).getD i 0 = 3 / 4 := by
  simp only [exponentialSeverity, if_pos hc]
  rw [getD_map_of_lt _ _ hi 0 0]

theorem sigmoidCentered_getD {scores : List ℚ} {i : ℕ} (hi : i < scores.length)
    (hc : stdR (scores.map (fun s => -s)) ≠ 0) :
    (sigmoidCentered scores).getD i 0 =
      1 / 2 + 1 / 2 * (1 / (1 + Real.exp (-2 *
        ((((-(scores.getD i 0) : ℚ) : ℝ) - ((medianQ (scores.map (fun s => -s)) : ℚ) : ℝ)) /
          stdR (scores.map (fun s => -s)))))) := by
  simp only [sigmoidCentered, if_neg hc]
  rw [getD_map_of_lt _ _ (by simpa using hi) 0 0, getD_map_of_lt _ _ hi 0 0]

theorem sigmoidCentered_getD_const {scores : List ℚ} {i : ℕ}
    (hi : i < scores.length) (hc : stdR (scores.map (fun s => -s)) = 0) :
    (sigmoidCentered scores).getD i 0 = 3 / 4 := by
  simp only [sigmoidCentered, if_pos hc]
  rw [getD_map_of_lt _ _ hi 0 0]

theorem thresholdBased_getD {scores : List ℚ} {i : ℕ} (hi : i < scores.length) :
    (thresholdBased scores).getD i 0 =
      thresholdTier (percentileQ (scores.map (fun s => -s)) 25)
        (percentileQ (scores.map (fun s => -s)) 50)
        (percentileQ (scores.map (fun s => -s)) 75) (-(scores.getD i 0)) := by
  simp only [thresholdBased]
  rw [getD_map_of_lt _ _ (by simpa using hi) 0 0, getD_map_of_lt _ _ hi 0 0]

theorem scores_ne_nil {scores : List ℚ} {i : ℕ} (hi : i < scores.length) :
    scores ≠ [] := by
  intro h
  subst h
  simp at hi

theorem neg_getD_mem {scores : List ℚ} {i : ℕ} (hi : i < scores.length) :
    -(scores.getD i 0) ∈ scores.map (fun s => -s) :=
  List.mem_map_of_mem _ (getD_mem hi)

theorem severityRankingAnom_anti (scores : List ℚ) (i j : ℕ)
    (hi : i < scores.length) (hj : j < scores.length)
    (hij : scores.getD i 0 < scores.getD j 0) :
    (severityRankingAnom scores).getD j 0 ≤ (severityRankingAnom scores).getD i 0 := by
  by_cases hc : listMax (scores.map (fun s => -s)) = listMin (scores.map (fun s => -s))
  · rw [severityRankingAnom_getD_const hi hc, severityRankingAnom_getD_const hj hc]
  · rw [severityRankingAnom_getD hi hc, severityRankingAnom_getD hj hc]
    have hmono := scale_mono (l := scores.map (fun s => -s))
      (by simpa using scores_ne_nil hi) hc (neg_le_neg hij.le)
    linarith

theorem severityRankingAll_anti (scores : List ℚ) (i j : ℕ)
    (hi : i < scores.length) (hj : j < scores.length)
    (hij : scores.getD i 0 < scores.getD j 0) :
    (severityRankingAll scores).getD j 0 ≤ (severityRankingAll scores).getD i 0 := by
  by_cases hc : listMax (scores.map (fun s => -s)) = listMin (scores.map (fun s => -s))
  · rw [severityRankingAll_getD_const hi hc, severityRankingAll_getD_const hj hc]
  · rw [severityRankingAll_getD hi hc, severityRankingAll_getD hj hc]
    have hmono := scale_mono (l := scores.map (fun s => -s))
      (by simpa using scores_ne_nil hi) hc (neg_le_neg hij.le)
    have hp0 : 0 ≤ (-(scores.getD i 0) - listMin (scores.map (fun s => -s))) /
        (listMax (scores.map (fun s => -s)) - listMin (scores.map (fun s => -s))) :=
      scale_nonneg (neg_getD_mem hi) hc
    have hp1 : (-(scores.getD j 0) - listMin (scores.map (fun s => -s))) /
        (listMax (scores.map (fun s => -s)) - listMin (scores.map (fun s => -s))) ≤ 1 :=
      scale_le_one (neg_getD_mem hj) hc
    rcases lt_or_le (scores.getD i 0) 0 with hi0 | hi0
    · rw [if_pos hi0]
      rcases lt_or_le (scores.getD j 0) 0 with hj0 | hj0
      · rw [if_pos hj0]; linarith
      · rw [if_neg (not_lt.mpr hj0)]; linarith
    · rw [if_neg (not_lt.mpr hi0), if_neg (not_lt.mpr (le_trans hi0 hij.le))]
      linarith

theorem percentileWithinAnomalies_anti (scores : List ℚ) (i j : ℕ)
    (hi : i < scores.length) (hj : j < scores.length)
    (hij : scores.getD i 0 < scores.getD j 0) :
    ∀ p q : ℚ, (percentileWithinAnomalies scores).getD i none = some p →
      (percentileWithinAnomalies scores).getD j none = some q → q ≤ p := by
  intro p q hp hq
  have hij' : i ≠ j := by
    intro h
    rw [h] at hij
    exact lt_irrefl _ hij
  have hn2 : 2 ≤ scores.length := by omega
  have hn1 : scores.length ≠ 1 := by omega
  rw [percentileWithinAnomalies_getD hi hn1] at hp
  rw [percentileWithinAnomalies_getD hj hn1] at hq
  have hp' := Option.some.inj hp
  have hq' := Option.some.inj hq
  have hrank : rankAvg (scores.map (fun s => -s)) (-(scores.getD j 0)) <
      rankAvg (scores.map (fun s => -s)) (-(scores.getD i 0)) :=
    rankAvg_lt_rankAvg (neg_getD_mem hj) (neg_getD_mem hi) (neg_lt_neg hij)
  have hden : (0 : ℚ) < (scores.length : ℚ) - 1 := by
    have : (2 : ℚ) ≤ (scores.length : ℚ) := by exact_mod_cast hn2
    linarith
  have hdiv : (rankAvg (scores.map (fun s => -s)) (-(scores.getD j 0)) - 1) /
      ((scores.length : ℚ) - 1) ≤
      (rankAvg (scores.map (fun s => -s)) (-(scores.getD i 0)) - 1) /
      ((scores.length : ℚ) - 1) :=
    div_le_div_of_nonneg_right (by linarith) hden.le
  rw [← hp', ← hq']
  linarith

theorem exp_two_gt_one : (1 : ℝ) < Real.exp 2 := by
  have := Real.exp_lt_exp.mpr (show (0 : ℝ) < 2 by norm_num)
  simpa [Real.exp_zero] using this

theorem exponentialSeverity_anti (scores : List ℚ) (i j : ℕ)
    (hi : i < scores.length) (hj : j < scores.length)
    (hij : scores.getD i 0 < scores.getD j 0) :
    (exponentialSeverity scores).getD j 0 ≤ (exponentialSeverity scores).getD i 0 := by
  by_cases hc : listMax (scores.map (fun s => -s)) = listMin (scores.map (fun s => -s))
  · rw [exponentialSeverity_getD_const hi hc, exponentialSeverity_getD_const hj hc]
  · rw [exponentialSeverity_getD hi hc, exponentialSeverity_getD hj hc]
    have hmono := scale_mono (l := scores.map (fun s => -s))
      (by simpa using scores_ne_nil hi) hc (neg_le_neg hij.le)
    have hcast : (((-(scores.getD j 0) - listMin (scores.map (fun s => -s))) /
        (listMax (scores.map (fun s => -s)) - listMin (scores.map (fun s => -s))) : ℚ) : ℝ)
        ≤ (((-(scores.getD i 0) - listMin (scores.map (fun s => -s))) /
        (listMax (scores.map (fun s => -s)) - listMin (scores.map (fun s => -s))) : ℚ) : ℝ) := by
      exact_mod_cast hmono
    have hexp : Real.exp (2 * (((-(scores.getD j 0) - listMin (scores.map (fun s => -s))) /
        (listMax (scores.map (fun s => -s)) - listMin (scores.map (fun s => -s))) : ℚ) : ℝ))
        ≤ Real.exp (2 * (((-(scores.getD i 0) - listMin (scores.map (fun s => -s))) /
        (listMax (scores.map (fun s => -s)) - listMin (scores.map (fun s => -s))) : ℚ) : ℝ)) :=
      Real.exp_le_exp.mpr (by linarith)
    have hd : (0 : ℝ) < Real.exp 2 - 1 := by
      have := exp_two_gt_one
      linarith
    have hdiv := div_le_div_of_nonneg_right (sub_le_sub_right hexp 1) hd.le
    linarith

theorem sigmoidCentered_anti (scores : List ℚ) (i j : ℕ)
    (hi : i < scores.length) (hj : j < scores.length)
    (hij : scores.getD i 0 < scores.getD j 0) :
    (sigmoidCentered scores).getD j 0 ≤ (sigmoidCentered scores).getD i 0 := by
  by_cases hc : stdR (scores.map (fun s => -s)) = 0
  · rw [sigmoidCentered_getD_const hi hc, sigmoidCentered_getD_const hj hc]
  · rw [sigmoidCentered_getD hi hc, sigmoidCentered_getD hj hc]
    have hpos : 0 < stdR (scores.map (fun s => -s)) :=
      lt_of_le_of_ne (Real.sqrt_nonneg _) (Ne.symm hc)
    have hzz : ((((-(scores.getD j 0)) : ℚ) : ℝ) -
          ((medianQ (scores.map (fun s => -s)) : ℚ) : ℝ)) / stdR (scores.map (fun s => -s))
        ≤ ((((-(scores.getD i 0)) : ℚ) : ℝ) -
          ((medianQ (scores.map (fun s => -s)) : ℚ) : ℝ)) / stdR (scores.map (fun s => -s)) := by
      apply div_le_div_of_nonneg_right _ hpos.le
      have : ((-(scores.getD j 0) : ℚ) : ℝ) ≤ ((-(scores.getD i 0) : ℚ) : ℝ) := by
        exact_mod_cast neg_le_neg hij.le
      linarith
    have hexp : Real.exp (-2 * (((((-(scores.getD i 0)) : ℚ) : ℝ) -
          ((medianQ (scores.map (fun s => -s)) : ℚ) : ℝ)) / stdR (scores.map (fun s => -s))))
        ≤ Real.exp (-2 * (((((-(scores.getD j 0)) : ℚ) : ℝ) -
          ((medianQ (scores.map (fun s => -s)) : ℚ) : ℝ)) / stdR (scores.map (fun s => -s)))) :=
      Real.exp_le_exp.mpr (by linarith)
    have hpi : (0 : ℝ) < 1 + Real.exp (-2 * (((((-(scores.getD i 0)) : ℚ) : ℝ) -
        ((medianQ (scores.map (fun s => -s)) : ℚ) : ℝ)) / stdR (scores.map (fun s => -s)))) := by
      have := Real.exp_pos (-2 * (((((-(scores.getD i 0)) : ℚ) : ℝ) -
        ((medianQ (scores.map (fun s => -s)) : ℚ) : ℝ)) / stdR (scores.map (fun s => -s))))
      linarith
    have hdiv := one_div_le_one_div_of_le hpi (by linarith :
      1 + Real.exp (-2 * (((((-(scores.getD i 0)) : ℚ) : ℝ) -
        ((medianQ (scores.map (fun s => -s)) : ℚ) : ℝ)) / stdR (scores.map (fun s => -s))))
      ≤ 1 + Real.exp (-2 * (((((-(scores.getD j 0)) : ℚ) : ℝ) -
        ((medianQ (scores.map (fun s => -s)) : ℚ) : ℝ)) / stdR (scores.map (fun s => -s)))))
    linarith

theorem thresholdBased_anti (scores : List ℚ) (i j : ℕ)
    (hi : i < scores.length) (hj : j < scores.length)
    (hij : scores.getD i 0 < scores.getD j 0) :
    (thresholdBased scores).getD j 0 ≤ (thresholdBased scores).getD i 0 := by
  have hinv : scores.map (fun s => -s) ≠ [] := by
    simpa using scores_ne_nil hi
  have h1 : percentileQ (scores.map (fun s => -s)) 25 ≤
      percentileQ (scores.map (fun s => -s)) 50 :=
    percentileQ_mono _ hinv (by norm_num) (by norm_num) (by norm_num)
  have h2 : percentileQ (scores.map (fun s => -s)) 50 ≤
      percentileQ (scores.map (fun s => -s)) 75 :=
    percentileQ_mono _ hinv (by norm_num) (by norm_num) (by norm_num)
  rw [thresholdBased_getD hi, thresholdBased_getD hj]
  exact thresholdTier_mono h1 h2 (neg_le_neg hij.le)

/-- C1: calibration monotonicity.  For each of the five calibration
strategies of `isolation_forest_to_probability` and for the two ETL
`_convert_scores_to_probabilities` variants (`severityRankingAnom` is the
non-checkpoint ETL variant, `severityRankingAll` the checkpoint dual-range
variant), whenever row `i` has a strictly smaller (more anomalous) raw
score than row `j`, row `i` receives a probability at least as large as
row `j`.  For `percentile_within_anomalies` the guarantee is stated over
the defined (non-NaN) outputs, which is every output whenever two rows
exist. -/
theorem C1_calibration_monotonicity :
    (∀ (scores : List ℚ) (i j : ℕ), i < scores.length → j < scores.length →
      scores.getD i 0 < scores.getD j 0 →
      (severityRankingAnom scores).getD j 0 ≤ (severityRankingAnom scores).getD i 0) ∧
    (∀ (scores : List ℚ) (i j : ℕ), i < scores.length → j < scores.length →
      scores.getD i 0 < scores.getD j 0 →
      ∀ p q : ℚ, (percentileWithinAnomalies scores).getD i none = some p →
        (percentileWithinAnomalies scores).getD j none = some q → q ≤ p) ∧
    (∀ (scores : List ℚ) (i j : ℕ), i < scores.length → j < scores.length →
      scores.getD i 0 < scores.getD j 0 →
      (exponentialSeverity scores).getD j 0 ≤ (exponentialSeverity scores).getD i 0) ∧
    (∀ (scores : List ℚ) (i j : ℕ), i < scores.length → j < scores.length →
      scores.getD i 0 < scores.getD j 0 →
      (sigmoidCentered scores).getD j 0 ≤ (sigmoidCentered scores).getD i 0) ∧
    (∀ (scores : List ℚ) (i j : ℕ), i < scores.length → j < scores.length →
      scores.getD i 0 < scores.getD j 0 →
      (thresholdBased scores).getD j 0 ≤ (thresholdBased scores).getD i 0) ∧
    (∀ (scores : List ℚ) (i j : ℕ), i < scores.length → j < scores.length →
      scores.getD i 0 < scores.getD j 0 →
      (severityRankingAll scores).getD j 0 ≤ (severityRankingAll scores).getD i 0) :=
  ⟨severityRankingAnom_anti, percentileWithinAnomalies_anti, exponentialSeverity_anti,
   sigmoidCentered_anti, thresholdBased_anti, severityRankingAll_anti⟩

theorem C1_calibration_monotonicity_witness :
    ((severityRankingAnom [-2, -1]).getD 1 0 ≤ (severityRankingAnom [-2, -1]).getD 0 0) ∧
    ((1 / 2 : ℚ) ≤ 1) ∧
    ((exponentialSeverity [-2, -1]).getD 1 0 ≤ (exponentialSeverity [-2, -1]).getD 0 0) ∧
    ((sigmoidCentered [-2, -1]).getD 1 0 ≤ (sigmoidCentered [-2, -1]).getD 0 0) ∧
    ((thresholdBased [-2, -1]).getD 1 0 ≤ (thresholdBased [-2, -1]).getD 0 0) ∧
    ((severityRankingAll [-2, -1]).getD 1 0 ≤ (severityRankingAll [-2, -1]).getD 0 0) :=
  ⟨C1_calibration_monotonicity.1 [-2, -1] 0 1 (by decide) (by decide) (by decide),
   C1_calibration_monotonicity.2.1 [-2, -1] 0 1 (by decide) (by decide) (by decide)
     1 (1 / 2) (by norm_num [percentileWithinAnomalies, rankAvg])
     (by norm_num [percentileWithinAnomalies, rankAvg]),
   C1_calibration_monotonicity.2.2.1 [-2, -1] 0 1 (by decide) (by decide) (by decide),
   C1_calibration_monotonicity.2.2.2.1 [-2, -1] 0 1 (by decide) (by decide) (by decide),
   C1_calibration_monotonicity.2.2.2.2.1 [-2, -1] 0 1 (by decide) (by decide) (by decide),
   C1_calibration_monotonicity.2.2.2.2.2 [-2, -1] 0 1 (by decide) (by decide) (by decide)⟩

theorem severityRankingAnom_range (scores : List ℚ) :
    ∀ p ∈ severityRankingAnom scores, 1 / 2 ≤ p ∧ p ≤ 1 := by
  intro p hp
  by_cases hc : listMax (scores.map (fun s => -s)) = listMin (scores.map (fun s => -s))
  · simp only [severityRankingAnom, if_pos hc] at hp
    obtain ⟨x, _, rfl⟩ := List.mem_map.mp hp
    norm_num
  · simp only [severityRankingAnom, if_neg hc] at hp
    obtain ⟨x, hx, rfl⟩ := List.mem_map.mp hp
    have h0 := scale_nonneg hx hc
    have h1 := scale_le_one hx hc
    constructor <;> linarith

theorem severityRankingAll_range (scores : List ℚ) :
    ∀ p ∈ severityRankingAll scores, 0 ≤ p ∧ p ≤ 1 := by
  intro p hp
  by_cases hc : listMax (scores.map (fun s => -s)) = listMin (scores.map (fun s => -s))
  · simp only [severityRankingAll, if_pos hc] at hp
    obtain ⟨x, _, rfl⟩ := List.mem_map.mp hp
    norm_num
  · simp only [severityRankingAll, if_neg hc] at hp
    obtain ⟨x, hx, rfl⟩ := List.mem_map.mp hp
    have hmem : -x ∈ scores.map (fun s => -s) := List.mem_map_of_mem _ hx
    have h0 := scale_nonneg hmem hc
    have h1 := scale_le_one hmem hc
    split_ifs <;> constructor <;> linarith

theorem exponentialSeverity_range (scores : List ℚ) :
    ∀ p ∈ exponentialSeverity scores, 1 / 2 ≤ p ∧ p ≤ 1 := by
  intro p hp
  by_cases hc : listMax (scores.map (fun s => -s)) = listMin (scores.map (fun s => -s))
  · simp only [exponentialSeverity, if_pos hc] at hp
    obtain ⟨x, _, rfl⟩ := List.mem_map.mp hp
    norm_num
  · simp only [exponentialSeverity, if_neg hc] at hp
    obtain ⟨x, hx, rfl⟩ := List.mem_map.mp hp
    have h0 := scale_nonneg hx hc
    have h1 := scale_le_one hx hc
    have h0r : (0 : ℝ) ≤ (((x - listMin (scores.map (fun s => -s))) /
        (listMax (scores.map (fun s => -s)) - listMin (scores.map (fun s => -s))) : ℚ) : ℝ) := by
      exact_mod_cast h0
    have h1r : (((x - listMin (scores.map (fun s => -s))) /
        (listMax (scores.map (fun s => -s)) - listMin (scores.map (fun s => -s))) : ℚ) : ℝ) ≤ 1 := by
      exact_mod_cast h1
    have hlo : Real.exp 0 ≤ Real.exp (2 * (((x - listMin (scores.map (fun s => -s))) /
        (listMax (scores.map (fun s => -s)) - listMin (scores.map (fun s => -s))) : ℚ) : ℝ)) :=
      Real.exp_le_exp.mpr (by linarith)
    have hhi : Real.exp (2 * (((x - listMin (scores.map (fun s => -s))) /
        (listMax (scores.map (fun s => -s)) - listMin (scores.map (fun s => -s))) : ℚ) : ℝ))
        ≤ Real.exp 2 :=
      Real.exp_le_exp.mpr (by linarith)
    rw [Real.exp_zero] at hlo
    have hd : (0 : ℝ) < Real.exp 2 - 1 := by
      have := exp_two_gt_one
      linarith
    have hE0 : (0 : ℝ) ≤ (Real.exp (2 * (((x - listMin (scores.map (fun s => -s))) /
        (listMax (scores.map (fun s => -s)) - listMin (scores.map (fun s => -s))) : ℚ) : ℝ)) - 1) /
        (Real.exp 2 - 1) := div_nonneg (by linarith) hd.le
    have hE1 : (Real.exp (2 * (((x - listMin (scores.map (fun s => -s))) /
        (listMax (scores.map (fun s => -s)) - listMin (scores.map (fun s => -s))) : ℚ) : ℝ)) - 1) /
        (Real.exp 2 - 1) ≤ 1 := by
      rw [div_le_one hd]
      linarith
    constructor <;> linarith

theorem sigmoidCentered_range (scores : List ℚ) :
    ∀ p ∈ sigmoidCentered scores, 1 / 2 ≤ p ∧ p ≤ 1 := by
  intro p hp
  by_cases hc : stdR (scores.map (fun s => -s)) = 0
  · simp only [sigmoidCentered, if_pos hc] at hp
    obtain ⟨x, _, rfl⟩ := List.mem_map.mp hp
    norm_num
  · simp only [sigmoidCentered, if_neg hc] at hp
    obtain ⟨x, hx, rfl⟩ := List.mem_map.mp hp
    have he : (0 : ℝ) < Real.exp (-2 * ((((x : ℚ) : ℝ) -
        ((medianQ (scores.map (fun s => -s)) : ℚ) : ℝ)) / stdR (scores.map (fun s => -s)))) :=
      Real.exp_pos _
    have hd : (1 : ℝ) < 1 + Real.exp (-2 * ((((x : ℚ) : ℝ) -
        ((medianQ (scores.map (fun s => -s)) : ℚ) : ℝ)) / stdR (scores.map (fun s => -s)))) := by
      linarith
    have hs0 : (0 : ℝ) < 1 / (1 + Real.exp (-2 * ((((x : ℚ) : ℝ) -
        ((medianQ (scores.map (fun s => -s)) : ℚ) : ℝ)) / stdR (scores.map (fun s => -s))))) :=
      by positivity
    have hs1 : 1 / (1 + Real.exp (-2 * ((((x : ℚ) : ℝ) -
        ((medianQ (scores.map (fun s => -s)) : ℚ) : ℝ)) /
          stdR (scores.map (fun s => -s))))) < 1 := by
      rw [div_lt_one (by linarith)]
      linarith
    constructor <;> nlinarith

theorem thresholdBased_range (scores : List ℚ) :
    ∀ p ∈ thresholdBased scores, 1 / 2 ≤ p ∧ p ≤ 1 := by
  intro p hp
  simp only [thresholdBased] at hp
  obtain ⟨x, hx, rfl⟩ := List.mem_map.mp hp
  have hinv : scores.map (fun s => -s) ≠ [] := List.ne_nil_of_mem hx
  have h1 : percentileQ (scores.map (fun s => -s)) 25 ≤
      percentileQ (scores.map (fun s => -s)) 50 :=
    percentileQ_mono _ hinv (by norm_num) (by norm_num) (by norm_num)
  have h2 : percentileQ (scores.map (fun s => -s)) 50 ≤
      percentileQ (scores.map (fun s => -s)) 75 :=
    percentileQ_mono _ hinv (by norm_num) (by norm_num) (by norm_num)
  rw [thresholdTier_eq h1 h2]
  split_ifs <;> norm_num

theorem percentileWithinAnomalies_range (scores : List ℚ)
    (hn : 2 ≤ scores.length) :
    ∀ o ∈ percentileWithinAnomalies scores, ∃ q, o = some q ∧ 1 / 2 ≤ q ∧ q ≤ 1 := by
  intro o ho
  have hn1 : scores.length ≠ 1 := by omega
  simp only [percentileWithinAnomalies, if_neg hn1] at ho
  obtain ⟨x, hx, rfl⟩ := List.mem_map.mp ho
  refine ⟨_, rfl, ?_, ?_⟩
  · have hr1 : 1 ≤ rankAvg (scores.map (fun s => -s)) x := rankAvg_ge_one hx
    have hden : (0 : ℚ) < (scores.length : ℚ) - 1 := by
      have : (2 : ℚ) ≤ (scores.length : ℚ) := by exact_mod_cast hn
      linarith
    have : (0 : ℚ) ≤ (rankAvg (scores.map (fun s => -s)) x - 1) /
        ((scores.length : ℚ) - 1) := div_nonneg (by linarith) hden.le
    linarith
  · have hrn : rankAvg (scores.map (fun s => -s)) x ≤
        ((scores.map (fun s => -s)).length : ℚ) := rankAvg_le_length hx
    rw [List.length_map] at hrn
    have hden : (0 : ℚ) < (scores.length : ℚ) - 1 := by
      have : (2 : ℚ) ≤ (scores.length : ℚ) := by exact_mod_cast hn
      linarith
    have hle : (rankAvg (scores.map (fun s => -s)) x - 1) /
        ((scores.length : ℚ) - 1) ≤ 1 := by
      rw [div_le_one hden]
      linarith
    linarith

theorem percentileWithinAnomalies_singleton (scores : List ℚ)
    (hn : scores.length = 1) : percentileWithinAnomalies scores = [none] := by
  obtain ⟨a, rfl⟩ := List.length_eq_one.mp hn
  simp [percentileWithinAnomalies]

/-- C2 (amended): calibration range.  Outputs of `severity_ranking`,
`exponential_severity`, `sigmoid_centered` and `threshold_based` always
lie in `[0.5, 1]`, and outputs of the dual-range all-rows variant lie in
`[0, 1]`.  Outputs of `percentile_within_anomalies` lie in `[0.5, 1]`
whenever the input has at least two scores; on a single-score input the
strategy instead produces the float `NaN` (modelled `none`), which is the
one exception to the claimed `[0, 1]` range. -/
theorem C2_calibration_range :
    (∀ scores : List ℚ, ∀ p ∈ severityRankingAnom scores, 1 / 2 ≤ p ∧ p ≤ 1) ∧
    (∀ scores : List ℚ, ∀ p ∈ exponentialSeverity scores, 1 / 2 ≤ p ∧ p ≤ 1) ∧
    (∀ scores : List ℚ, ∀ p ∈ sigmoidCentered scores, 1 / 2 ≤ p ∧ p ≤ 1) ∧
    (∀ scores : List ℚ, ∀ p ∈ thresholdBased scores, 1 / 2 ≤ p ∧ p ≤ 1) ∧
    (∀ scores : List ℚ, 2 ≤ scores.length →
      ∀ o ∈ percentileWithinAnomalies scores, ∃ q, o = some q ∧ 1 / 2 ≤ q ∧ q ≤ 1) ∧
    (∀ scores : List ℚ, scores.length = 1 → percentileWithinAnomalies scores = [none]) ∧
    (∀ scores : List ℚ, ∀ p ∈ severityRankingAll scores, 0 ≤ p ∧ p ≤ 1) :=
  ⟨severityRankingAnom_range, exponentialSeverity_range, sigmoidCentered_range,
   thresholdBased_range, percentileWithinAnomalies_range,
   percentileWithinAnomalies_singleton, severityRankingAll_range⟩

theorem C2_calibration_range_counterexample :
    percentileWithinAnomalies [(-1 : ℚ)] = [none] ∧
    ¬ (∀ o ∈ percentileWithinAnomalies [(-1 : ℚ)],
        ∃ q : ℚ, o = some q ∧ 0 ≤ q ∧ q ≤ 1) := by
  constructor
  · simp [percentileWithinAnomalies]
  · intro h
    obtain ⟨q, hq, _⟩ := h none (by simp [percentileWithinAnomalies])
    exact Option.noConfusion hq

theorem C2_calibration_range_witness :
    ((1 / 2 : ℚ) ≤ 1 / 2 ∧ (1 / 2 : ℚ) ≤ 1) ∧
    (∃ q : ℚ, some (1 / 2 : ℚ) = some q ∧ 1 / 2 ≤ q ∧ q ≤ 1) ∧
    ((0 : ℚ) ≤ 1 / 2 ∧ (1 / 2 : ℚ) ≤ 1) :=
  ⟨C2_calibration_range.1 [-1, -2] (1 / 2)
      (by norm_num [severityRankingAnom, listMin, listMax]),
   C2_calibration_range.2.2.2.2.1 [-1, -2] (by norm_num) (some (1 / 2))
      (by norm_num [percentileWithinAnomalies, rankAvg]),
   C2_calibration_range.2.2.2.2.2.2 [-1, -1] (1 / 2)
      (by norm_num [severityRankingAll, listMin, listMax])⟩

theorem sum_const {l : List ℚ} {c : ℚ} (h : ∀ x ∈ l, x = c) :
    l.sum = l.length * c := by
  induction l with
  | nil => simp
  | cons x xs ih =>
      have hx : x = c := h x (List.mem_cons_self x xs)
      have ih' := ih (fun y hy => h y (List.mem_cons_of_mem x hy))
      simp only [List.sum_cons, List.length_cons, ih', hx]
      push_cast
      ring

theorem meanQ_const {l : List ℚ} {c : ℚ} (hne : l ≠ []) (h : ∀ x ∈ l, x = c) :
    meanQ l = c := by
  have hl : (l.length : ℚ) ≠ 0 := by
    have := List.length_pos.mpr hne
    positivity
  unfold meanQ
  rw [sum_const h]
  field_simp

theorem meanQ_zero {m : List ℚ} (hz : ∀ y ∈ m, y = 0) : meanQ m = 0 := by
  unfold meanQ
  rw [sum_const hz]
  simp

theorem varQ_const {l : List ℚ} {c : ℚ} (hne : l ≠ []) (h : ∀ x ∈ l, x = c) :
    varQ l = 0 := by
  have hm := meanQ_const hne h
  have hz : ∀ y ∈ l.map (fun x => (x - meanQ l) ^ 2), y = 0 := by
    intro y hy
    obtain ⟨x, hx, rfl⟩ := List.mem_map.mp hy
    rw [hm, h x hx]
    ring
  unfold varQ
  exact meanQ_zero hz

theorem inverted_const {scores : List ℚ} {c : ℚ} (h : ∀ x ∈ scores, x = c) :
    ∀ y ∈ scores.map (fun s => -s), y = -c := by
  intro y hy
  obtain ⟨x, hx, rfl⟩ := List.mem_map.mp hy
  rw [h x hx]

theorem map_const_eq_replicate {α γ : Type} (l : List α) (c : γ) :
    l.map (fun _ => c) = List.replicate l.length c := by
  induction l with
  | nil => rfl
  | cons x xs ih => simp [List.replicate_succ, ih]

theorem map_const_of_length_eq {α β γ : Type} {l1 : List α} {l2 : List β}
    (h : l1.length = l2.length) (c : γ) :
    l1.map (fun _ => c) = l2.map (fun _ => c) := by
  rw [map_const_eq_replicate, map_const_eq_replicate, h]

theorem severityRankingAnom_const {scores : List ℚ} {c : ℚ} (hne : scores ≠ [])
    (h : ∀ x ∈ scores, x = c) :
    severityRankingAnom scores = scores.map (fun _ => 3 / 4) := by
  have hinvne : scores.map (fun s => -s) ≠ [] := by simpa using hne
  have hc : listMax (scores.map (fun s => -s)) = listMin (scores.map (fun s => -s)) := by
    rw [listMax_const hinvne (inverted_const h), listMin_const hinvne (inverted_const h)]
  simp only [severityRankingAnom, if_pos hc]

theorem severityRankingAll_const {scores : List ℚ} {c : ℚ} (hne : scores ≠ [])
    (h : ∀ x ∈ scores, x = c) :
    severityRankingAll scores = scores.map (fun _ => 1 / 2) := by
  have hinvne : scores.map (fun s => -s) ≠ [] := by simpa using hne
  have hc : listMax (scores.map (fun s => -s)) = listMin (scores.map (fun s => -s)) := by
    rw [listMax_const hinvne (inverted_const h), listMin_const hinvne (inverted_const h)]
  simp only [severityRankingAll, if_pos hc]

theorem exponentialSeverity_const {scores : List ℚ} {c : ℚ} (hne : scores ≠ [])
    (h : ∀ x ∈ scores, x = c) :
    exponentialSeverity scores = scores.map (fun _ => (3 / 4 : ℝ)) := by
  have hinvne : scores.map (fun s => -s) ≠ [] := by simpa using hne
  have hc : listMax (scores.map (fun s => -s)) = listMin (scores.map (fun s => -s)) := by
    rw [listMax_const hinvne (inverted_const h), listMin_const hinvne (inverted_const h)]
  simp only [exponentialSeverity, if_pos hc]

theorem sigmoidCentered_const {scores : List ℚ} {c : ℚ} (hne : scores ≠ [])
    (h : ∀ x ∈ scores, x = c) :
    sigmoidCentered scores = scores.map (fun _ => (3 / 4 : ℝ)) := by
  have hinvne : scores.map (fun s => -s) ≠ [] := by simpa using hne
  have hc : stdR (scores.map (fun s => -s)) = 0 := by
    unfold stdR
    rw [varQ_const hinvne (inverted_const h)]
    simp
  simp only [sigmoidCentered, if_pos hc]

theorem percentileWithinAnomalies_const {scores : List ℚ} {c : ℚ}
    (h : ∀ x ∈ scores, x = c) (hn2 : 2 ≤ scores.length) :
    percentileWithinAnomalies scores = scores.map (fun _ => some (3 / 4)) := by
  have hn1 : scores.length ≠ 1 := by omega
  have hnq : (2 : ℚ) ≤ (scores.length : ℚ) := by exact_mod_cast hn2
  simp only [percentileWithinAnomalies, if_neg hn1]
  have hval : ∀ x ∈ scores.map (fun s => -s),
      some (1 / 2 + 1 / 2 * ((rankAvg (scores.map (fun s => -s)) x - 1) /
        ((scores.length : ℚ) - 1))) = some ((3 / 4 : ℚ)) := by
    intro x hx
    have hxc : x = -c := inverted_const h x hx
    have hcnt : (scores.map (fun s => -s)).countP (fun y => decide (y < x)) = 0 := by
      rw [List.countP_eq_zero]
      intro a ha
      rw [inverted_const h a ha, hxc]
      simp
    have hcount : (scores.map (fun s => -s)).count x = scores.length := by
      have he : (scores.map (fun s => -s)).count x =
          (scores.map (fun s => -s)).length := by
        rw [List.count_eq_length]
        intro b hb
        rw [hxc, inverted_const h b hb]
      simpa using he
    have hr : rankAvg (scores.map (fun s => -s)) x =
        ((scores.length : ℚ) + 1) / 2 := by
      unfold rankAvg
      rw [hcnt, hcount]
      push_cast
      ring
    rw [hr]
    have hd : (scores.length : ℚ) - 1 ≠ 0 := by
      intro hz
      have : (scores.length : ℚ) = 1 := by linarith
      linarith
    congr 1
    field_simp
    ring
  rw [List.map_congr_left hval]
  exact map_const_of_length_eq (by simp) _

theorem percentileQ_const {xs : List ℚ} {c : ℚ} (hne : xs ≠ [])
    (hall : ∀ x ∈ xs, x = c) {q : ℚ} (hq0 : 0 ≤ q) (hq100 : q ≤ 100) :
    percentileQ xs q = c := by
  have hn1 : 1 ≤ xs.length := List.length_pos.mpr hne
  have hnq : (1 : ℚ) ≤ (xs.length : ℚ) := by exact_mod_cast hn1
  have hs_all : ∀ x ∈ xs.insertionSort (· ≤ ·), x = c := by
    intro x hx
    exact hall x ((List.perm_insertionSort _ _).mem_iff.mp hx)
  unfold percentileQ
  rw [interpQ_eq]
  have hh0 : 0 ≤ q / 100 * ((xs.length : ℚ) - 1) :=
    mul_nonneg (div_nonneg hq0 (by norm_num)) (by linarith)
  have hq1 : q / 100 ≤ 1 := by linarith
  have hq0' : 0 ≤ q / 100 := div_nonneg hq0 (by norm_num)
  have hhn : q / 100 * ((xs.length : ℚ) - 1) ≤ (xs.length : ℚ) - 1 := by
    nlinarith
  have hlo : (Int.floor (q / 100 * ((xs.length : ℚ) - 1))).toNat ≤ xs.length - 1 :=
    interpQ_lo_le hh0 hhn hn1
  have hlolt : (Int.floor (q / 100 * ((xs.length : ℚ) - 1))).toNat <
      (xs.insertionSort (· ≤ ·)).length := by
    rw [insertionSort_length]
    omega
  have ha : (xs.insertionSort (· ≤ ·)).getD
      (Int.floor (q / 100 * ((xs.length : ℚ) - 1))).toNat 0 = c :=
    hs_all _ (getD_mem hlolt)
  have hbval : (xs.insertionSort (· ≤ ·)).getD
      ((Int.floor (q / 100 * ((xs.length : ℚ) - 1))).toNat + 1)
      ((xs.insertionSort (· ≤ ·)).getD
        (Int.floor (q / 100 * ((xs.length : ℚ) - 1))).toNat 0) = c := by
    by_cases hcase : (Int.floor (q / 100 * ((xs.length : ℚ) - 1))).toNat + 1 <
        (xs.insertionSort (· ≤ ·)).length
    · rw [getD_default_irrel hcase _ 0]
      exact hs_all _ (getD_mem hcase)
    · rw [List.getD_eq_default _ _ (le_of_not_lt hcase)]
      exact ha
  rw [hbval, ha]
  ring

theorem thresholdTier_self (v : ℚ) : thresholdTier v v v v = 19 / 20 := by
  simp [thresholdTier]

theorem thresholdBased_const {scores : List ℚ} {c : ℚ} (hne : scores ≠ [])
    (h : ∀ x ∈ scores, x = c) :
    thresholdBased scores = scores.map (fun _ => 19 / 20) := by
  have hinvne : scores.map (fun s => -s) ≠ [] := by simpa using hne
  have h25 : percentileQ (scores.map (fun s => -s)) 25 = -c :=
    percentileQ_const hinvne (inverted_const h) (by norm_num) (by norm_num)
  have h50 : percentileQ (scores.map (fun s => -s)) 50 = -c :=
    percentileQ_const hinvne (inverted_const h) (by norm_num) (by norm_num)
  have h75 : percentileQ (scores.map (fun s => -s)) 75 = -c :=
    percentileQ_const hinvne (inverted_const h) (by norm_num) (by norm_num)
  simp only [thresholdBased, h25, h50, h75]
  have hval : ∀ x ∈ scores.map (fun s => -s),
      thresholdTier (-c) (-c) (-c) x = 19 / 20 := by
    intro x hx
    rw [inverted_const h x hx]
    exact thresholdTier_self (-c)
  rw [List.map_congr_left hval]
  exact map_const_of_length_eq (by simp) _

/-- C3 (amended): degenerate score safety.  On a non-empty all-equal score
sequence, no strategy divides by zero: `severity_ranking` (anomalies-only
scaling), `exponential_severity` and `sigmoid_centered` return the
constant 0.75 for every row, the all-rows dual-range variant returns the
constant 0.5, `percentile_within_anomalies` returns the constant 0.75
when there are at least two rows — but the float `NaN` (modelled `none`)
on a single row — and `threshold_based` returns the constant 0.95 for
every row rather than 0.5 or 0.75. -/
theorem C3_degenerate_scores (scores : List ℚ) (c : ℚ) (hne : scores ≠ [])
    (h : ∀ x ∈ scores, x = c) :
    severityRankingAnom scores = scores.map (fun _ => 3 / 4) ∧
    severityRankingAll scores = scores.map (fun _ => 1 / 2) ∧
    exponentialSeverity scores = scores.map (fun _ => (3 / 4 : ℝ)) ∧
    sigmoidCentered scores = scores.map (fun _ => (3 / 4 : ℝ)) ∧
    thresholdBased scores = scores.map (fun _ => 19 / 20) ∧
    (2 ≤ scores.length →
      percentileWithinAnomalies scores = scores.map (fun _ => some (3 / 4))) ∧
    (scores.length = 1 → percentileWithinAnomalies scores = [none]) :=
  ⟨severityRankingAnom_const hne h, severityRankingAll_const hne h,
   exponentialSeverity_const hne h, sigmoidCentered_const hne h,
   thresholdBased_const hne h,
   fun hn2 => percentileWithinAnomalies_const h hn2,
   fun hn1 => percentileWithinAnomalies_singleton scores hn1⟩

theorem C3_degenerate_scores_counterexample :
    thresholdBased [(-1 : ℚ), -1] = [19 / 20, 19 / 20] ∧
    percentileWithinAnomalies [(-1 : ℚ)] = [none] := by
  constructor
  · have := @thresholdBased_const [(-1 : ℚ), -1] (-1)
      (by decide) (by decide)
    simpa using this
  · simp [percentileWithinAnomalies]

theorem C3_degenerate_scores_witness :
    severityRankingAnom [(-1 : ℚ), -1] = [3 / 4, 3 / 4] ∧
    severityRankingAll [(-1 : ℚ), -1] = [1 / 2, 1 / 2] ∧
    percentileWithinAnomalies [(-1 : ℚ), -1] = [some (3 / 4), some (3 / 4)] :=
  ⟨(C3_degenerate_scores [(-1 : ℚ), -1] (-1) (by decide) (by decide)).1,
   (C3_degenerate_scores [(-1 : ℚ), -1] (-1) (by decide) (by decide)).2.1,
   (C3_degenerate_scores [(-1 : ℚ), -1] (-1) (by decide) (by decide)).2.2.2.2.2.1
     (by norm_num)⟩

/-- C10: an unknown calibration method name matches none of the five
`if/elif` branches of `isolation_forest_to_probability`; the function
raises nothing and implicitly returns Python `None` (modelled
`Option.none`) rather than any probability sequence. -/
theorem C10_unknown_method_returns_none (method : String)
    (h : method ∉ ["severity_ranking", "percentile_within_anomalies",
      "exponential_severity", "sigmoid_centered", "threshold_based"]) :
    ∀ scores : List ℚ, isolation_forest_to_probability scores method = none := by
  intro scores
  have h1 : ¬ method = "severity_ranking" := fun hh => h (by simp [hh])
  have h2 : ¬ method = "percentile_within_anomalies" := fun hh => h (by simp [hh])
  have h3 : ¬ method = "exponential_severity" := fun hh => h (by simp [hh])
  have h4 : ¬ method = "sigmoid_centered" := fun hh => h (by simp [hh])
  have h5 : ¬ method = "threshold_based" := fun hh => h (by simp [hh])
  simp [isolation_forest_to_probability, h1, h2, h3, h4, h5]

theorem C10_unknown_method_returns_none_witness :
    isolation_forest_to_probability [(-1 : ℚ)] "median_rescale" = none :=
  C10_unknown_method_returns_none "median_rescale" (by decide) [(-1 : ℚ)]

/-- C4 (amended): when a non-empty column selection has empty intersection
with the raw table's columns, `prepare_features` fails — but with
`TransformationError` (message
"Feature preparation failed: No required columns found in data" after the
`try/except` re-wrap), not with the distinct `ConfigurationError` kind the
spec prescribes; `ConfigurationError` is raised only by the config-file
loader in this codebase. -/
theorem C4_empty_intersection_error (cols : List String) (df : DFrame)
    (hne : cols ≠ []) (hmiss : ∀ c ∈ cols, c ∉ df.cols) :
    prepare_features cols df = .error (.transformationError
      "Feature preparation failed: No required columns found in data") := by
  have hne' : cols.isEmpty = false := by
    cases cols with
    | nil => exact absurd rfl hne
    | cons a l => rfl
  have hemp : cols.filter (fun c => df.cols.contains c) = [] := by
    rw [List.filter_eq_nil_iff]
    intro a ha
    simpa using hmiss a ha
  simp only [prepare_features, prepareFeaturesBody, hne', Bool.false_eq_true,
    if_false, hemp]
  rfl

theorem C4_empty_intersection_error_counterexample :
    prepare_features ["a"] ⟨["b"], [[some 1]]⟩ = .error (.transformationError
      "Feature preparation failed: No required columns found in data") ∧
    prepare_features ["a"] ⟨["b"], [[some 1]]⟩ ≠ .error (.configurationError
      "Feature preparation failed: No required columns found in data") := by
  constructor
  · rfl
  · intro hc
    rw [show prepare_features ["a"] ⟨["b"], [[some 1]]⟩ = .error (.transformationError
      "Feature preparation failed: No required columns found in data") from rfl] at hc
    simp at hc

theorem C4_empty_intersection_error_witness :
    prepare_features ["a"] ⟨["b", "c"], [[some 1, some 2]]⟩ =
      .error (.transformationError
        "Feature preparation failed: No required columns found in data") :=
  C4_empty_intersection_error ["a"] ⟨["b", "c"], [[some 1, some 2]]⟩
    (by decide) (by decide)

theorem getD_mem_of_lt {α : Type} {l : List α} {i : ℕ} (hi : i < l.length)
    (d : α) : l.getD i d ∈ l := by
  rw [List.getD_eq_getElem _ _ hi]
  exact List.getElem_mem hi

theorem labels_getD_false {labels : List Bool} (h : ∀ b ∈ labels, b = false)
    (i : ℕ) : labels.getD i false = false := by
  by_cases hi : i < labels.length
  · exact h _ (getD_mem_of_lt hi false)
  · rw [List.getD_eq_default _ _ (le_of_not_lt hi)]

/-- C9 (amended): when the model flags zero rows, neither detector variant
raises during the explanation step (both are total on this input), and the
anomalies-only report is an empty table — with columns exactly
`IP, evidence, probability` in the checkpoint variant, but
`IP, anomaly_reason, probability` (not `evidence`) in the non-checkpoint
variant. -/
theorem C9_no_anomaly_schema (ips : List String) (X : List (List ℚ))
    (labels : List Bool) (scores : List ℚ) (h : ∀ b ∈ labels, b = false) :
    (detectAnomaliesCheckpoint ips X labels scores).1 =
      ⟨["IP", "evidence", "probability"], []⟩ ∧
    detectAnomaliesMain ips X labels scores =
      ⟨["IP", "anomaly_reason", "probability"], []⟩ := by
  constructor
  · simp only [detectAnomaliesCheckpoint]
    have hfil : ((List.range ips.length).map (fun i =>
        (ips.getD i "", explainRow X labels i,
         (severityRankingAll scores).getD i 0, labels.getD i false))).filter
        (fun r => r.2.2.2) = [] := by
      rw [List.filter_eq_nil_iff]
      intro r hr
      obtain ⟨i, _, rfl⟩ := List.mem_map.mp hr
      simpa using labels_getD_false h i
    rw [hfil]
    simp
  · simp only [detectAnomaliesMain]
    have hfil : (List.range labels.length).filter
        (fun i => labels.getD i false) = [] := by
      rw [List.filter_eq_nil_iff]
      intro a _
      simpa using labels_getD_false h a
    rw [hfil]
    simp

theorem C9_no_anomaly_schema_counterexample :
    (detectAnomaliesMain ["a"] [[1]] [false] [0]).cols =
      ["IP", "anomaly_reason", "probability"] ∧
    (["IP", "anomaly_reason", "probability"] : List String) ≠
      ["IP", "evidence", "probability"] := by
  constructor
  · have hfil : ((List.range 1).filter
        (fun i => ([false] : List Bool).getD i false)) = [] := rfl
    simp [detectAnomaliesMain, hfil]
  · decide

theorem C9_no_anomaly_schema_witness :
    (detectAnomaliesCheckpoint ["a"] [[1]] [false] [0]).1 =
      ⟨["IP", "evidence", "probability"], []⟩ ∧
    detectAnomaliesMain ["a"] [[1]] [false] [0] =
      ⟨["IP", "anomaly_reason", "probability"], []⟩ :=
  C9_no_anomaly_schema ["a"] [[1]] [false] [0] (by decide)

theorem maskFilter_eq_indexFilter (X : List (List ℚ)) (mask : List Bool)
    (hlen : mask.length = X.length) :
    maskFilter X mask =
      ((List.range X.length).filter (fun k => !(mask.getD k false))).map
        (fun k => X.getD k []) := by
  induction X generalizing mask with
  | nil =>
      cases mask with
      | nil => rfl
      | cons b bs => simp at hlen
  | cons x xs ih =>
      cases mask with
      | nil => simp at hlen
      | cons b bs =>
          have hlen' : bs.length = xs.length := by simpa using hlen
          have ihx := ih bs hlen'
          have hzip : maskFilter (x :: xs) (b :: bs) =
              (if !b then [x] else []) ++ maskFilter xs bs := by
            simp only [maskFilter, List.zip_cons_cons, List.filter_cons]
            cases b <;> simp
          rw [hzip, ihx]
          rw [List.length_cons, List.range_succ_eq_map, List.filter_cons,
            List.filter_map]
          have hcomp : ((fun k => !((b :: bs).getD k false)) ∘ Nat.succ) =
              (fun k => !(bs.getD k false)) := by
            funext k
            rfl
          rw [hcomp]
          cases b <;> simp [List.map_map, Function.comp_def]

theorem colVals_indexFilter (X : List (List ℚ)) (mask : List Bool) (j : ℕ)
    (hlen : mask.length = X.length) :
    colVals (maskFilter X mask) j =
      ((List.range X.length).filter (fun k => !(mask.getD k false))).map
        (fun k => (X.getD k []).getD j 0) := by
  unfold colVals
  rw [maskFilter_eq_indexFilter X mask hlen, List.map_map]
  rfl

/-- C6: the evidence baseline.  For every feature `j`, the explainer's
baseline mean and standard deviation are computed over exactly the rows
not flagged anomalous (with `1e-5` added to the standard deviation), and
fall back to the global mean/standard deviation over all rows when every
row is flagged; each row's per-feature deviation equals
`|actual - baseline_mean| / baseline_std`. -/
theorem C6_evidence_baseline (X : List (List ℚ)) (mask : List Bool) (j : ℕ)
    (hlen : mask.length = X.length) :
    (((List.range X.length).filter (fun k => !(mask.getD k false))) ≠ [] →
      baselineMean X mask j =
        (((List.range X.length).filter (fun k => !(mask.getD k false))).map
          (fun k => (X.getD k []).getD j 0)).sum /
          ((((List.range X.length).filter (fun k => !(mask.getD k false))).length : ℚ)) ∧
      baselineStd X mask j = Real.sqrt
        (((((List.range X.length).filter (fun k => !(mask.getD k false))).map
          (fun k => ((X.getD k []).getD j 0 - baselineMean X mask j) ^ 2)).sum /
          ((((List.range X.length).filter (fun k => !(mask.getD k false))).length : ℚ)) : ℚ))
        + 1 / 100000) ∧
    (((List.range X.length).filter (fun k => !(mask.getD k false))) = [] →
      baselineMean X mask j = meanQ (colVals X j) ∧
      baselineStd X mask j = stdR (colVals X j) + 1 / 100000) ∧
    (∀ i : ℕ, rowDevs X mask i = (List.range (X.getD i []).length).map (fun jj =>
      |(((X.getD i []).getD jj 0 : ℚ) : ℝ) - ((baselineMean X mask jj : ℚ) : ℝ)| /
        baselineStd X mask jj)) := by
  have hcol := colVals_indexFilter X mask j hlen
  refine ⟨?_, ?_, ?_⟩
  · intro hne
    have hmf : maskFilter X mask ≠ [] := by
      rw [maskFilter_eq_indexFilter X mask hlen]
      simpa using hne
    have hnr : normalRows X mask = maskFilter X mask := by
      unfold normalRows
      rw [if_neg]
      simpa [List.length_eq_zero] using hmf
    have hmean : meanQ (((List.range X.length).filter
          (fun k => !(mask.getD k false))).map (fun k => (X.getD k []).getD j 0)) =
        baselineMean X mask j := by
      unfold baselineMean
      rw [hnr, hcol]
    constructor
    · unfold baselineMean
      rw [hnr, hcol]
      unfold meanQ
      rw [List.length_map]
    · have harg : varQ (colVals (normalRows X mask) j) =
          (((List.range X.length).filter (fun k => !(mask.getD k false))).map
            (fun k => ((X.getD k []).getD j 0 - baselineMean X mask j) ^ 2)).sum /
          ((((List.range X.length).filter (fun k => !(mask.getD k false))).length : ℚ)) := by
        rw [hnr, hcol]
        unfold varQ
        rw [hmean, List.map_map]
        unfold meanQ
        rw [List.length_map]
        rfl
      unfold baselineStd stdR
      rw [harg]
  · intro hemp
    have hmf : maskFilter X mask = [] := by
      rw [maskFilter_eq_indexFilter X mask hlen, hemp]
      rfl
    have hnr : normalRows X mask = X := by
      unfold normalRows
      rw [hmf]
      simp
    exact ⟨by unfold baselineMean; rw [hnr], by unfold baselineStd; rw [hnr]⟩
  · intro i
    unfold rowDevs
    apply List.map_congr_left
    intro jj _
    have hσ : (0 : ℝ) < baselineStd X mask jj := by
      unfold baselineStd stdR
      positivity
    rw [abs_div, abs_of_pos hσ]

theorem C6_evidence_baseline_witness :
    baselineMean [[(1 : ℚ)]] [true] 0 = meanQ (colVals [[(1 : ℚ)]] 0) ∧
    baselineStd [[(1 : ℚ)]] [true] 0 = stdR (colVals [[(1 : ℚ)]] 0) + 1 / 100000 :=
  (C6_evidence_baseline [[(1 : ℚ)]] [true] 0 (by decide)).2.1 (by decide)

theorem argLe_total (devs : List ℝ) : ∀ i j, argLe devs i j ∨ argLe devs j i := by
  intro i j
  rcases lt_trichotomy (devs.getD i 0) (devs.getD j 0) with h | h | h
  · exact Or.inl (Or.inl h)
  · rcases le_total i j with hij | hij
    · exact Or.inl (Or.inr ⟨h, hij⟩)
    · exact Or.inr (Or.inr ⟨h.symm, hij⟩)
  · exact Or.inr (Or.inl h)

theorem argLe_trans (devs : List ℝ) :
    ∀ i j k, argLe devs i j → argLe devs j k → argLe devs i k := by
  intro i j k hij hjk
  rcases hij with h1 | ⟨h1, h1'⟩
  · rcases hjk with h2 | ⟨h2, _⟩
    · exact Or.inl (h1.trans h2)
    · exact Or.inl (h2 ▸ h1)
  · rcases hjk with h2 | ⟨h2, h2'⟩
    · exact Or.inl (h1 ▸ h2)
    · exact Or.inr ⟨h1.trans h2, h1'.trans h2'⟩

theorem argLe_antisymm (devs : List ℝ) :
    ∀ i j, argLe devs i j → argLe devs j i → i = j := by
  intro i j hij hji
  rcases hij with h1 | ⟨h1, h1'⟩
  · rcases hji with h2 | ⟨h2, _⟩
    · exact absurd (h1.trans h2) (lt_irrefl _)
    · exact absurd h1 (h2 ▸ lt_irrefl _)
  · rcases hji with h2 | ⟨h2, h2'⟩
    · exact absurd h2 (h1 ▸ lt_irrefl _)
    · exact le_antisymm h1' h2'

theorem reverse_drop_eq {α : Type} (l : List α) (k : ℕ) :
    (l.drop k).reverse = l.reverse.take (l.length - k) := by
  have h2 : l.reverse = (l.drop k).reverse ++ (l.take k).reverse := by
    rw [← List.reverse_append, List.take_append_drop]
  have hlen : (l.drop k).reverse.length = l.length - k := by simp
  rw [h2, List.take_left' hlen]

/-- The code's selection `np.argsort(devs)[-3:][::-1]` equals the first
three positions of the full descending argsort whose ties are broken by
the later original position first. -/
theorem topKIndices_eq_descTake (devs : List ℝ) :
    topKIndices devs = (argsortDescLaterTies devs).take 3 := by
  haveI : IsTotal ℕ (argLe devs) := ⟨argLe_total devs⟩
  haveI : IsTrans ℕ (argLe devs) := ⟨fun a b c => argLe_trans devs a b c⟩
  haveI : IsTotal ℕ (argGe devs) := ⟨fun i j => argLe_total devs j i⟩
  haveI : IsTrans ℕ (argGe devs) := ⟨fun a b c hab hbc => argLe_trans devs c b a hbc hab⟩
  haveI : IsAntisymm ℕ (argGe devs) :=
    ⟨fun a b hab hba => (argLe_antisymm devs b a hab hba).symm⟩
  have hasc : (argsortAsc devs).Sorted (argLe devs) := List.sorted_insertionSort _ _
  have hrev : (argsortAsc devs).reverse.Sorted (argGe devs) := by
    rw [List.Sorted, List.pairwise_reverse]
    exact hasc
  have ht : (argsortDescLaterTies devs).Sorted (argGe devs) :=
    List.sorted_insertionSort _ _
  have hperm : List.Perm (argsortAsc devs).reverse (argsortDescLaterTies devs) :=
    ((List.reverse_perm _).trans (List.perm_insertionSort _ _)).trans
      (List.perm_insertionSort _ _).symm
  have heq : (argsortAsc devs).reverse = argsortDescLaterTies devs :=
    List.eq_of_perm_of_sorted hperm hrev ht
  have hlen : (argsortAsc devs).length = devs.length := by
    unfold argsortAsc
    rw [(List.perm_insertionSort _ _).length_eq, List.length_range]
  have hlent : (argsortDescLaterTies devs).length = devs.length := by
    rw [← heq]
    simp [hlen]
  unfold topKIndices
  rw [reverse_drop_eq, heq, hlen]
  rcases le_or_lt 3 devs.length with h3 | h3
  · have : devs.length - (devs.length - 3) = 3 := by omega
    rw [this]
  · have h0 : devs.length - 3 = 0 := by omega
    rw [h0, Nat.sub_zero,
      List.take_of_length_le (by omega : (argsortDescLaterTies devs).length ≤ devs.length),
      List.take_of_length_le (by omega : (argsortDescLaterTies devs).length ≤ 3)]

/-- C5 (amended): for every row, the explainer's evidence selection is
exactly the top three features by deviation descending — but with equal
deviations the feature **later** in the original order is ranked first,
since `np.argsort(devs)[-3:][::-1]` reverses a stable ascending argsort. -/
theorem C5_evidence_topk (X : List (List ℚ)) (mask : List Bool) (i : ℕ) :
    evidenceIndices X mask i = (argsortDescLaterTies (rowDevs X mask i)).take 3 :=
  topKIndices_eq_descTake _

theorem topKIndices_const3 (d : ℝ) : topKIndices [d, d, d] = [2, 1, 0] := by
  have h12 : argLe [d, d, d] 1 2 := Or.inr ⟨rfl, by norm_num⟩
  have h01 : argLe [d, d, d] 0 1 := Or.inr ⟨rfl, by norm_num⟩
  have hrange : List.range ([d, d, d] : List ℝ).length = [0, 1, 2] := rfl
  have hsort : argsortAsc [d, d, d] = [0, 1, 2] := by
    unfold argsortAsc
    rw [hrange]
    simp only [List.insertionSort]
    rw [List.orderedInsert_nil, List.orderedInsert_of_le _ _ h12,
      List.orderedInsert_of_le _ _ h01]
  unfold topKIndices
  rw [hsort]
  rfl

theorem specTopK_const3 (d : ℝ) : specTopKEarlierTies [d, d, d] = [0, 1, 2] := by
  have h12 : specArgGe [d, d, d] 1 2 := Or.inr ⟨rfl, by norm_num⟩
  have h01 : specArgGe [d, d, d] 0 1 := Or.inr ⟨rfl, by norm_num⟩
  have hrange : List.range ([d, d, d] : List ℝ).length = [0, 1, 2] := rfl
  unfold specTopKEarlierTies
  rw [hrange]
  simp only [List.insertionSort]
  rw [List.orderedInsert_nil, List.orderedInsert_of_le _ _ h12,
    List.orderedInsert_of_le _ _ h01]
  rfl

theorem C5_evidence_topk_counterexample :
    evidenceIndices [[1, 1, 1], [2, 2, 2]] [false, true] 1 = [2, 1, 0] ∧
    specTopKEarlierTies (rowDevs [[1, 1, 1], [2, 2, 2]] [false, true] 1) =
      [0, 1, 2] ∧
    evidenceIndices [[1, 1, 1], [2, 2, 2]] [false, true] 1 ≠
      specTopKEarlierTies (rowDevs [[1, 1, 1], [2, 2, 2]] [false, true] 1) := by
  have hdev : rowDevs [[1, 1, 1], [2, 2, 2]] [false, true] 1 =
      [100000, 100000, 100000] := by
    norm_num [rowDevs, baselineMean, baselineStd, stdR, normalRows, maskFilter,
      colVals, varQ, meanQ, Real.sqrt_zero, List.range_succ, abs_of_nonneg]
  have h1 : evidenceIndices [[1, 1, 1], [2, 2, 2]] [false, true] 1 = [2, 1, 0] := by
    unfold evidenceIndices
    rw [hdev, topKIndices_const3]
  have h2 : specTopKEarlierTies (rowDevs [[1, 1, 1], [2, 2, 2]] [false, true] 1) =
      [0, 1, 2] := by
    rw [hdev, specTopK_const3]
  refine ⟨h1, h2, ?_⟩
  rw [h1, h2]
  decide
